import Mathlib

/-!
Verification of the dynamic-mcp-hub core against its specification.

The Python sources under `app/` are shallowly embedded: JSON-like Python
values become the inductive `PyVal`, pure functions become Lean functions,
exceptions become `Except`, and the stateful registry / lifespan manager
become explicit state types with step functions.  Python `dict`s (which
preserve insertion order and update values in place) are modelled as
association lists with in-place update.
-/

namespace MCPHub

/-- Model of a Python / JSON value as stored in a parsed OpenAPI document
(`dict[str, Any]`).  Dictionary keys are strings, matching documents
produced by the JSON/YAML loader in `app/openapi_loader.py`. -/
inductive PyVal where
  | none_ : PyVal
  | bool : Bool → PyVal
  | int : Int → PyVal
  | str : String → PyVal
  | list : List PyVal → PyVal
  | dict : List (String × PyVal) → PyVal

/-- Python truthiness (`if x:`) for the modelled values. -/
def PyVal.truthy : PyVal → Bool
  | .none_ => false
  | .bool b => b
  | .int n => n != 0
  | .str s => s ≠ ""
  | .list l => !l.isEmpty
  | .dict d => !d.isEmpty

/-- `d.get(k)` on a Python dict (first binding wins; our embeddings keep
keys unique by updating in place). -/
def pyGet (d : List (String × PyVal)) (k : String) : Option PyVal :=
  d.lookup k

/-- `d.get(k, default)`. -/
def pyGetD (d : List (String × PyVal)) (k : String) (v : PyVal) : PyVal :=
  (pyGet d k).getD v

/-- Python word character for the regex class in `sanitize_tool_name`
(ASCII letters, digits, underscore). -/
def isWordChar (c : Char) : Bool :=
  c.isAlpha || c.isDigit || c == '_'

/-- `re.sub(r"\{(\w+)\}", r"\1", ·)` from `sanitize_tool_name` in
`app/openapi_to_mcp.py`: a left-to-right scan replacing each
`\x7b word \x7d` group by the bare word.  The fuel argument only bounds
the recursion (every step consumes at least one character and exactly one
fuel unit, so with fuel exceeding the length the zero-fuel fallback is
unreachable). -/
def subPlaceholdersGo : Nat → List Char → List Char
  | _, [] => []
  | 0, l => l
  | fuel + 1, c :: rest =>
    if c = '\x7b' then
      let w := rest.takeWhile isWordChar
      match rest.dropWhile isWordChar with
      | d :: rest2 =>
        if w ≠ [] ∧ d = '\x7d' then
          w ++ subPlaceholdersGo fuel rest2
        else
          c :: subPlaceholdersGo fuel rest
      | [] => c :: subPlaceholdersGo fuel rest
    else
      c :: subPlaceholdersGo fuel rest

def subPlaceholders (cs : List Char) : List Char :=
  subPlaceholdersGo (cs.length + 1) cs

/-- `re.sub(r"[^a-zA-Z0-9_]", "_", ·)`: every non-word character becomes an
underscore. -/
def underscoreNonWord (cs : List Char) : List Char :=
  cs.map (fun c => if isWordChar c then c else '_')

/-- `re.sub(r"_+", "_", ·)`: collapse runs of underscores.  The flag records
whether the previous kept character was an underscore. -/
def collapseUnderscoresGo : Bool → List Char → List Char
  | _, [] => []
  | prevU, c :: rest =>
    if c = '_' then
      if prevU then collapseUnderscoresGo true rest
      else '_' :: collapseUnderscoresGo true rest
    else
      c :: collapseUnderscoresGo false rest

def collapseUnderscores (cs : List Char) : List Char :=
  collapseUnderscoresGo false cs

/-- `·.strip("_")`: drop leading and trailing underscores. -/
def stripUnderscores (cs : List Char) : List Char :=
  ((cs.dropWhile (· = '_')).reverse.dropWhile (· = '_')).reverse

/-- `sanitize_tool_name` from `app/openapi_to_mcp.py`. -/
def sanitize_tool_name (s : String) : String :=
  String.mk (stripUnderscores (collapseUnderscores (underscoreNonWord (subPlaceholders s.data))))

/-- `str.upper()` restricted to ASCII, as applied to the fixed lowercase
HTTP method names. -/
def pyUpper (s : String) : String :=
  String.mk (s.data.map Char.toUpper)

/-- `generate_tool_name` from `app/openapi_to_mcp.py`.  The operation id is
`operation.get("operationId")`; `if operation_id:` is a truthiness test, so
`none` and the empty string both fall back to `METHOD__sanitized_path`. -/
def generate_tool_name (method path : String) (operationId : Option String) : String :=
  match operationId with
  | some oid =>
    if oid ≠ "" then sanitize_tool_name oid
    else pyUpper method ++ "__" ++ sanitize_tool_name path
  | none => pyUpper method ++ "__" ++ sanitize_tool_name path

/-- ASCII alphanumeric (letters and digits, excluding underscore). -/
def isAlnumChar (c : Char) : Bool :=
  c.isAlpha || c.isDigit

/-- Replace every maximal run of non-word characters with a single
underscore, leaving word characters (including pre-existing underscores)
untouched.  This is the literal reading of the specification sentence
"replace every non-alphanumeric/non-underscore run with a single
underscore"; used to compare the spec's described rule with the code. -/
def collapseNonWordRunsGo : Bool → List Char → List Char
  | _, [] => []
  | inRun, c :: rest =>
    if isWordChar c then c :: collapseNonWordRunsGo false rest
    else if inRun then collapseNonWordRunsGo true rest
    else '_' :: collapseNonWordRunsGo true rest

/-- The sanitization rule exactly as the specification words it: replace
`\x7b param \x7d` placeholders with bare `param`, replace every
non-alphanumeric/non-underscore run with a single underscore, trim
leading/trailing underscores.  (Spec-side definition, for comparison with
`sanitize_tool_name`.) -/
def claimSanitize (s : String) : String :=
  String.mk (stripUnderscores (collapseNonWordRunsGo false (subPlaceholders s.data)))

/-- One step of grouping a character list into maximal runs of characters
satisfying `p`, folded from the right.  The flag records whether the
character just to the right satisfies `p`. -/
def runsByGo (p : Char → Bool) (c : Char) :
    List (List Char) × Bool → List (List Char) × Bool
  | (rs, nextP) =>
    if p c then
      match rs, nextP with
      | r :: rs2, true => ((c :: r) :: rs2, true)
      | _, _ => ([c] :: rs, true)
    else (rs, false)

/-- The maximal runs of characters satisfying `p`, in order. -/
def runsBy (p : Char → Bool) (cs : List Char) : List (List Char) :=
  (cs.foldr (runsByGo p) ([], false)).1

/-- Amended reading of the sanitization rule: after replacing placeholders,
the result is the maximal alphanumeric runs of the identifier joined by
single underscores (so every separator run — non-alphanumeric characters
and pre-existing underscores alike — collapses to one underscore, and the
ends are trimmed).  (Spec-side definition, for comparison with
`sanitize_tool_name`.) -/
def specSanitizeAmended (s : String) : String :=
  String.mk (List.intercalate ['_'] (runsBy isAlnumChar (subPlaceholders s.data)))

/-- Errors of the conversion engine.  `conversionError` models
`OpenAPIConversionError`; `typeError` models any other runtime exception
raised by the Python code on ill-typed document content (`AttributeError`,
`TypeError`, unhashable keys, …). -/
inductive ConvErr where
  | conversionError : String → ConvErr
  | typeError : ConvErr
deriving DecidableEq

/-- The message raised by `resolve_base_url` when no base URL is found. -/
def noServerMsg : String :=
  "No server URL found in spec and no base_url_override provided"

/-- `str.rstrip("/")`: drop all trailing slashes. -/
def pyRstripSlash (s : String) : String :=
  String.mk (s.data.reverse.dropWhile (· = '/')).reverse

/-- The `servers` branch of `resolve_base_url`: `servers = spec.get("servers", [])`,
then `if servers and isinstance(servers[0], dict) and "url" in servers[0]`.
A truthy non-list, non-string `servers` value makes `servers[0]` raise
(`TypeError`/`KeyError`); a non-string `url` value makes `.rstrip` raise
`AttributeError`; a truthy string's first element is a one-character string,
not a dict, so the `ConversionError` branch is taken. -/
def resolveFromServers (spec : List (String × PyVal)) : Except ConvErr String :=
  match pyGetD spec "servers" (.list []) with
  | .list [] => .error (.conversionError noServerMsg)
  | .list (s0 :: _) =>
    match s0 with
    | .dict d =>
      match d.lookup "url" with
      | some (.str u) => .ok (pyRstripSlash u)
      | some _ => .error .typeError
      | none => .error (.conversionError noServerMsg)
    | _ => .error (.conversionError noServerMsg)
  | .str _ => .error (.conversionError noServerMsg)
  | .dict [] => .error (.conversionError noServerMsg)
  | .dict (_ :: _) => .error .typeError
  | .int n => if n = 0 then .error (.conversionError noServerMsg) else .error .typeError
  | .bool b => if b then .error .typeError else .error (.conversionError noServerMsg)
  | .none_ => .error (.conversionError noServerMsg)

/-- `resolve_base_url` from `app/openapi_to_mcp.py`.  Note that
`if base_url_override:` is a truthiness test: `None` and the empty string
both fall through to the `servers` branch. -/
def resolve_base_url (spec : List (String × PyVal)) (override : Option String) :
    Except ConvErr String :=
  match override with
  | some o => if o ≠ "" then .ok (pyRstripSlash o) else resolveFromServers spec
  | none => resolveFromServers spec

/-- The first declared server URL of a document, as the specification words
it ("the first declared server URL"): the `url` of the first entry of the
`servers` list, when that entry is a mapping carrying a string `url`.
(Spec-side definition, for comparison with `resolve_base_url`.) -/
def firstServerUrl (spec : List (String × PyVal)) : Option String :=
  match pyGet spec "servers" with
  | some (.list (.dict d :: _)) =>
    match d.lookup "url" with
    | some (.str u) => some u
    | _ => none
  | _ => none

/-- Documents whose `servers` field is well-typed: absent, or a list whose
first entry, when it is a mapping with a `url` key, maps `url` to a
string.  Outside this set `resolve_base_url` raises exceptions other than
`ConversionError` (for example `AttributeError` on a non-string url). -/
def serversWf (spec : List (String × PyVal)) : Bool :=
  match pyGet spec "servers" with
  | none => true
  | some (.list l) =>
    match l with
    | .dict d :: _ =>
      match d.lookup "url" with
      | some (.str _) => true
      | some _ => false
      | none => true
    | _ => true
  | some _ => false

/-- Equality test of a Python value against a string literal
(`v == "path"`). -/
def PyVal.isStrEq (v : PyVal) (s : String) : Bool :=
  match v with
  | .str t => t = s
  | _ => false

/-- Whether a value can be used as a Python dict/set key (`list` and `dict`
are unhashable and raise `TypeError`). -/
def pyHashable : PyVal → Bool
  | .list _ | .dict _ => false
  | _ => true

/-- Truthiness of an optional string (`if base_url_override:`). -/
def overrideTruthy : Option String → Bool
  | some s => s ≠ ""
  | none => false

/-- Python dict assignment `d[k] = v`: updates the existing binding in
place, else appends a new one (insertion order preserved). -/
def pyDictSet (d : List (String × α)) (k : String) (v : α) : List (String × α) :=
  match d with
  | [] => [(k, v)]
  | (k2, w) :: t => if k2 = k then (k2, v) :: t else (k2, w) :: pyDictSet t k v

/-- Model of a Python type expression produced by `openapi_type_to_python`
and the `| None` widening for optional fields. -/
inductive PyType where
  | str | int | float | bool | list | dict | any
  | optional : PyType → PyType
deriving DecidableEq

/-- `OPENAPI_TYPE_MAP.get(openapi_type, Any)` for a string key. -/
def openapiTypeMap : String → PyType
  | "string" => .str
  | "integer" => .int
  | "number" => .float
  | "boolean" => .bool
  | "array" => .list
  | "object" => .dict
  | _ => .any

/-- `openapi_type_to_python` from `app/openapi_to_mcp.py`:
`schema.get("type", "string")` then a dict lookup.  An unhashable `type`
value (list/dict) raises `TypeError` at the lookup; other non-string
hashable values simply miss the map and fall back to `Any`. -/
def openapi_type_to_python (schema : List (String × PyVal)) : Except ConvErr PyType :=
  match pyGetD schema "type" (.str "string") with
  | .str s => .ok (openapiTypeMap s)
  | .list _ => .error .typeError
  | .dict _ => .error .typeError
  | _ => .ok .any

/-- One input field of a generated tool: the Python type annotation, the
requiredness (Pydantic default `...` when required, `None` otherwise) and
the description value passed to `FieldInfo`. -/
structure FieldSpec where
  type : PyType
  required : Bool
  description : PyVal

/-- The loop body of `build_input_model` for one parameter.  A non-dict
parameter raises at `param.get`; falsy names and non-path/query locations
are skipped; a non-dict `schema` raises at `schema.get`; a truthy
non-string name raises (unhashable in the field dict, or a non-string
keyword at `create_model`).  `is_required` is
`param_in == "path" or param.get("required", False)`, used for truthiness
only. -/
def processParam (fields : List (String × FieldSpec)) (param : PyVal) :
    Except ConvErr (List (String × FieldSpec)) :=
  match param with
  | .dict p =>
    let nameVal := pyGetD p "name" .none_
    if !nameVal.truthy then .ok fields
    else
      let inVal := pyGetD p "in" .none_
      if !(inVal.isStrEq "path" || inVal.isStrEq "query") then .ok fields
      else
        match pyGetD p "schema" (.dict []) with
        | .dict schema =>
          match openapi_type_to_python schema with
          | .error e => .error e
          | .ok ty =>
            let isReq := inVal.isStrEq "path" || (pyGetD p "required" (.bool false)).truthy
            let desc := pyGetD p "description" (.str "")
            let ty2 := if isReq then ty else .optional ty
            match nameVal with
            | .str pname => .ok (pyDictSet fields pname ⟨ty2, isReq, desc⟩)
            | _ => .error .typeError
        | _ => .error .typeError
  | _ => .error .typeError

/-- The request-body tail of `build_input_model`:
`request_body = operation.get("requestBody", {})`, `content`,
`json_content = content.get("application/json", {})`, adding a `body`
field when the JSON content is truthy. -/
def processBody (operation : List (String × PyVal)) (fields : List (String × FieldSpec)) :
    Except ConvErr (List (String × FieldSpec)) :=
  match pyGetD operation "requestBody" (.dict []) with
  | .dict rb =>
    match pyGetD rb "content" (.dict []) with
    | .dict content =>
      let jsonContent := pyGetD content "application/json" (.dict [])
      if jsonContent.truthy then
        let bodyRequired := (pyGetD rb "required" (.bool false)).truthy
        let desc := pyGetD rb "description" (.str "JSON request body")
        let ty : PyType := if bodyRequired then .dict else .optional .dict
        .ok (pyDictSet fields "body" ⟨ty, bodyRequired, desc⟩)
      else .ok fields
    | _ => .error .typeError
  | _ => .error .typeError

/-- `build_input_model` from `app/openapi_to_mcp.py`, returning the field
dictionary handed to `create_model`.  `pathParamsVal` is the raw
`path_item.get("parameters", [])` value;
`all_params = path_params + operation.get("parameters", [])` raises
`TypeError` unless both are lists (two strings would concatenate, but each
character then raises at `param.get`). -/
def build_input_model (operation : List (String × PyVal)) (pathParamsVal : PyVal) :
    Except ConvErr (List (String × FieldSpec)) :=
  match pathParamsVal, pyGetD operation "parameters" (.list []) with
  | .list pp, .list opp => do
    let fields ← (pp ++ opp).foldlM processParam []
    processBody operation fields
  | _, _ => .error .typeError

/-- The set comprehensions for `path_param_names` / `query_param_names` in
`build_mcp_server`: for each parameter whose `in` is `path` or `query` and
which has a `name` key, the name value is added to a set, raising
`TypeError` when it is unhashable.  (Parameters are dicts here: a non-dict
would already have raised inside `build_input_model`.) -/
def checkHandlerParam (param : PyVal) : Except ConvErr Unit :=
  match param with
  | .dict p =>
    let inVal := pyGetD p "in" .none_
    if inVal.isStrEq "path" || inVal.isStrEq "query" then
      match p.lookup "name" with
      | some v => if pyHashable v then .ok () else .error .typeError
      | none => .ok ()
    else .ok ()
  | _ => .error .typeError

/-- Tool-name computation inside the `build_mcp_server` loop:
`operation.get("operationId")` then `generate_tool_name`.  A truthy
non-string operation id raises inside `re.sub`. -/
def toolNameFor (method pathStr : String) (operation : List (String × PyVal)) :
    Except ConvErr String :=
  let v := pyGetD operation "operationId" .none_
  if v.truthy then
    match v with
    | .str s => .ok (generate_tool_name method pathStr (some s))
    | _ => .error .typeError
  else .ok (generate_tool_name method pathStr none)

/-- Body of the per-method loop of `build_mcp_server` for one HTTP method:
skip when the method is absent or its operation is not a dict; otherwise
generate the tool name, build the input model, compute the handler's
parameter-name sets, and append the name.  (The name is appended before
the input model is built in the source; since any exception aborts the
whole conversion, the order does not affect the result.) -/
def processMethod (pathStr : String) (item : List (String × PyVal))
    (acc : List String) (method : String) : Except ConvErr (List String) :=
  match item.lookup method with
  | some (.dict operation) => do
    let toolName ← toolNameFor method pathStr operation
    let pathLevelParams := pyGetD item "parameters" (.list [])
    let _fields ← build_input_model operation pathLevelParams
    let allParams ←
      (match pathLevelParams, pyGetD operation "parameters" (.list []) with
       | .list pp, .list opp => Except.ok (pp ++ opp)
       | _, _ => Except.error ConvErr.typeError)
    let _ ← allParams.foldlM (fun _ p => checkHandlerParam p) ()
    pure (acc ++ [toolName])
  | some _ => .ok acc
  | none => .ok acc

/-- One entry of the `paths` dict: non-dict path items are skipped;
otherwise the seven HTTP methods are iterated in the given order. -/
def processPathItem (methodOrder : List String) (acc : List String)
    (entry : String × PyVal) : Except ConvErr (List String) :=
  match entry.2 with
  | .dict item => methodOrder.foldlM (processMethod entry.1 item) acc
  | _ => .ok acc

/-- The written order of the `http_methods` set literal in
`app/openapi_to_mcp.py`.  The code iterates the *set*, whose order is an
unspecified, hash-dependent permutation of these seven strings. -/
def httpMethodsList : List String :=
  ["get", "post", "put", "patch", "delete", "options", "head"]

/-- `build_mcp_server` from `app/openapi_to_mcp.py`, restricted to its
observable result: the collected tool names (the generated sub-application
itself is registration side effects keyed by exactly these names).
`methodOrder` is the iteration order of the `http_methods` set.
`spec.get("paths", {})` must be a dict, else `.items()` raises
`AttributeError`. -/
def build_tool_names (methodOrder : List String) (spec : List (String × PyVal))
    (override : Option String) : Except ConvErr (List String) := do
  let _base ← resolve_base_url spec override
  match pyGetD spec "paths" (.dict []) with
  | .dict paths => paths.foldlM (processPathItem methodOrder) []
  | _ => .error .typeError

/-- The tool name of one present operation, as a pure function (defined on
operations whose `operationId`, when truthy, is a string). -/
def pureOpName (method pathStr : String) (operation : List (String × PyVal)) : String :=
  match pyGetD operation "operationId" .none_ with
  | .str s => generate_tool_name method pathStr (some s)
  | _ => generate_tool_name method pathStr none

/-- The tool names contributed by one path item, in method-iteration
order: one name per method present with a dict operation. -/
def pathToolNames (methodOrder : List String) (pathStr : String)
    (item : List (String × PyVal)) : List String :=
  methodOrder.filterMap (fun m =>
    match item.lookup m with
    | some (.dict op) => some (pureOpName m pathStr op)
    | _ => none)

/-- All tool names of a document in discovery order: path entries in
document order, each contributing its `pathToolNames` block. -/
def collectToolNames (methodOrder : List String) (spec : List (String × PyVal)) :
    List String :=
  match pyGetD spec "paths" (.dict []) with
  | .dict paths =>
    paths.flatMap (fun entry =>
      match entry.2 with
      | .dict item => pathToolNames methodOrder entry.1 item
      | _ => [])
  | _ => []

/-- Well-typedness of one parameter value: it is a dict, and when its
location is `path`/`query`, its `name` is hashable, and a truthy name is a
string with a well-typed schema (`schema` a dict whose `type` is
hashable).  Parameters outside these locations are skipped by the code
before anything can raise. -/
def paramWfB (param : PyVal) : Bool :=
  match param with
  | .dict p =>
    let inVal := pyGetD p "in" .none_
    if inVal.isStrEq "path" || inVal.isStrEq "query" then
      let nameVal := pyGetD p "name" .none_
      pyHashable nameVal &&
        (if nameVal.truthy then
          (match nameVal with
           | .str _ =>
             (match pyGetD p "schema" (.dict []) with
              | .dict schema => pyHashable (pyGetD schema "type" (.str "string"))
              | _ => false)
           | _ => false)
         else true)
    else true
  | _ => false

/-- Well-typedness of one operation dict: truthy `operationId` is a
string, `parameters` (when present) is a list of well-typed parameters,
and `requestBody`/`content` (when present) are dicts. -/
def operationWfB (operation : List (String × PyVal)) : Bool :=
  (let v := pyGetD operation "operationId" .none_
   !v.truthy || (match v with | .str _ => true | _ => false)) &&
  (match pyGetD operation "parameters" (.list []) with
   | .list l => l.all paramWfB
   | _ => false) &&
  (match pyGetD operation "requestBody" (.dict []) with
   | .dict rb =>
     (match pyGetD rb "content" (.dict []) with
      | .dict _ => true
      | _ => false)
   | _ => false)

/-- Well-typedness of one path item: non-dicts are skipped by the code;
dict items need list-of-well-typed `parameters` and well-typed operations
under the seven method keys. -/
def pathItemWfB (itemVal : PyVal) : Bool :=
  match itemVal with
  | .dict item =>
    (match pyGetD item "parameters" (.list []) with
     | .list l => l.all paramWfB
     | _ => false) &&
    httpMethodsList.all (fun m =>
      match item.lookup m with
      | some (.dict op) => operationWfB op
      | _ => true)
  | _ => true

/-- Well-typedness of a document's `paths` section. -/
def specWfB (spec : List (String × PyVal)) : Bool :=
  match pyGetD spec "paths" (.dict []) with
  | .dict paths => paths.all (fun entry => pathItemWfB entry.2)
  | _ => false

/-- Python `s.startswith(pre)` (character-based, like Python). -/
def pyStartsWith (s pre : String) : Bool :=
  pre.data.isPrefixOf s.data

/-- Python `s.endswith(suf)` (character-based). -/
def pyEndsWith (s suf : String) : Bool :=
  suf.data.reverse.isPrefixOf s.data.reverse

/-- Python `s[n:]` (character-based slicing). -/
def pyDropChars (s : String) (n : Nat) : String :=
  String.mk (s.data.drop n)

/-- Whether `pat` occurs as a contiguous sublist of `s`. -/
def listIsInfix (pat s : List Char) : Bool :=
  match s with
  | [] => pat.isEmpty
  | _ :: t => pat.isPrefixOf s || listIsInfix pat t

/-- Python substring membership `needle in hay`. -/
def strContains (needle hay : String) : Bool :=
  listIsInfix needle.data hay.data

/-- The fields of an upstream HTTP response observed by the generated
handler in `create_tool_handler`: the status code, the `content-type`
header (`headers.get("content-type", "")`), the body text, and the
outcome of `response.json()` (`none` models a parse exception). -/
structure UpstreamResponse where
  status : Int
  contentType : String
  text : String
  jsonResult : Option PyVal

/-- The structured fallback object built by the handler. -/
def fallbackResponse (r : UpstreamResponse) : PyVal :=
  .dict [("text", .str r.text), ("status_code", .int r.status),
         ("content_type", .str r.contentType)]

/-- The response-processing tail of the handler in `create_tool_handler`
(`app/openapi_to_mcp.py` lines 210-223): if the content type contains
`application/json`, try `response.json()` and return it, swallowing any
parse exception; otherwise — or on parse failure — return the structured
fallback. -/
def handle_response (r : UpstreamResponse) : PyVal :=
  if strContains "application/json" r.contentType then
    match r.jsonResult with
    | some v => v
    | none => fallbackResponse r
  else fallbackResponse r

mutual
/-- `str(value)` for the modelled Python values, as used for path-parameter
substitution.  String escaping inside container reprs is not modelled
(container-valued path parameters never occur in the verified claims). -/
def pyStr : PyVal → String
  | .none_ => "None"
  | .bool b => if b then "True" else "False"
  | .int n => toString n
  | .str s => s
  | .list l => "[" ++ String.intercalate ", " (pyReprList l) ++ "]"
  | .dict d => "\x7b" ++ String.intercalate ", " (pyReprDict d) ++ "\x7d"

/-- `repr(value)`: like `str` but quoting strings. -/
def pyRepr : PyVal → String
  | .str s => "'" ++ s ++ "'"
  | v => pyStr v

/-- `repr` of each element of a list value. -/
def pyReprList : List PyVal → List String
  | [] => []
  | v :: t => pyRepr v :: pyReprList t

/-- `repr` of each binding of a dict value. -/
def pyReprDict : List (String × PyVal) → List String
  | [] => []
  | (k, v) :: t => ("'" ++ k ++ "': " ++ pyRepr v) :: pyReprDict t
end

/-- `s.replace(old, new)` for a nonempty pattern `o1 :: orest`:
left-to-right, non-overlapping.  The fuel only bounds the recursion
(every step consumes at least one character). -/
def replaceAllGo : Nat → List Char → Char → List Char → List Char → List Char
  | _, [], _, _, _ => []
  | 0, s, _, _, _ => s
  | fuel + 1, c :: t, o1, orest, new =>
    if (o1 :: orest).isPrefixOf (c :: t) then
      new ++ replaceAllGo fuel (t.drop orest.length) o1 orest new
    else
      c :: replaceAllGo fuel t o1 orest new

def replaceAll (s : List Char) (o1 : Char) (orest new : List Char) : List Char :=
  replaceAllGo (s.length + 1) s o1 orest new

/-- Split a character list at the first occurrence of a substring:
`some (pre, post)` with `s = pre ++ pat ++ post`, or `none`. -/
def splitAtSub (s pat : List Char) : Option (List Char × List Char) :=
  match s with
  | [] => if pat = [] then some ([], []) else none
  | c :: t =>
    if pat.isPrefixOf (c :: t) then some ([], (c :: t).drop pat.length)
    else (splitAtSub t pat).map (fun pr => (c :: pr.1, pr.2))

/-- The `scheme://authority` part of an absolute URL (the part kept by
`urljoin` when the relative reference starts with `/`). -/
def schemeAuthority (base : String) : String :=
  match splitAtSub base.data [':', '/', '/'] with
  | some (pre, post) => String.mk (pre ++ [':', '/', '/'] ++ post.takeWhile (· ≠ '/'))
  | none => ""

/-- The base URL up to and including its last slash (the path-merge step
of `urljoin` for a relative reference). -/
def dropLastSegment (base : String) : String :=
  String.mk (base.data.reverse.dropWhile (· ≠ '/')).reverse

/-- Modelled from Python's `urllib.parse.urljoin`, restricted to the inputs
`build_url_with_path_params` produces: an absolute hierarchical base and a
relative reference that carries no scheme/authority of its own, no query,
no fragment, and no `.`/`..` segments (outside this domain real `urljoin`
performs scheme parsing and dot-segment removal that this model omits; the
theorems below constrain their inputs to the modelled domain). -/
def urljoinModel (base rel : String) : String :=
  if pyStartsWith rel "/" then schemeAuthority base ++ rel
  else dropLastSegment base ++ rel

/-- `build_url_with_path_params` from `app/openapi_to_mcp.py`: substitute
each `\x7b key \x7d` placeholder with `str(value)` (in parameter order),
ensure the base ends with a slash, drop one leading slash from the path,
and `urljoin` the two. -/
def build_url_with_path_params (baseUrl path : String) (params : List (String × PyVal)) :
    String :=
  let resolvedPath := params.foldl
    (fun p kv => String.mk (replaceAll p.data '\x7b' (kv.1.data ++ ['\x7d']) (pyStr kv.2).data))
    path
  let base2 := if pyEndsWith baseUrl "/" then baseUrl else baseUrl ++ "/"
  let rel := if pyStartsWith resolvedPath "/" then pyDropChars resolvedPath 1 else resolvedPath
  urljoinModel base2 rel

/-- The path-substitution part of `build_url_with_path_params` alone (the
value of `resolved_path` after the loop). -/
def substitutedPath (path : String) (params : List (String × PyVal)) : String :=
  params.foldl
    (fun p kv => String.mk (replaceAll p.data '\x7b' (kv.1.data ++ ['\x7d']) (pyStr kv.2).data))
    path

/-- `ValidationStatus` from `app/models.py`. -/
inductive ValidationStatus where
  | valid | invalid | pending
deriving DecidableEq

/-- The fields of `SpecEntry` (from `app/models.py`) that the registry
state machine reads or writes.  `raw_text`/`parsed_spec`/`source_type` are
carried opaquely by the real entry and never influence the claimed
invariant. -/
structure RegEntry where
  enabled : Bool
  validation_status : ValidationStatus
  validation_errors : List String
  tool_names : List String
  base_url_override : Option String

/-- `d.pop(k, None)` / `del d[k]` on a Python dict: the binding for `k`
disappears (dict keys are unique, so removing every occurrence in the
association list is the same operation). -/
def pyDictPop (d : List (String × α)) (k : String) : List (String × α) :=
  d.filter (fun p => p.1 ≠ k)

/-- `SpecRegistry` state from `app/registry.py`: the `_specs` entry map and
the `_mcp_apps` side table (spec name → generated ASGI app).  `App` is the
opaque type of generated sub-applications. -/
structure RegState (App : Type) where
  specs : List (String × RegEntry)
  mcp_apps : List (String × App)

/-- `SpecRegistry.get_mcp_app`: `None` when the entry is missing or
disabled, else the side-table lookup. -/
def get_mcp_app (r : RegState App) (name : String) : Option App :=
  match r.specs.lookup name with
  | none => none
  | some e => if e.enabled then r.mcp_apps.lookup name else none

/-- The control-plane operations of `app/main.py` at the endpoint level.
`register` carries the validation errors computed by the loader
(`upload_spec` derives the status from them).  `enable` carries the
outcome of `build_mcp_http_app`: `none` when the conversion raised (the
endpoint returns an error without touching the registry), otherwise the
generated sub-application and its tool names. -/
inductive HubOp (App : Type) where
  | register (name : String) (validationErrors : List String) (override : Option String)
  | enable (name : String) (conv : Option (App × List String))
  | disable (name : String)
  | delete (name : String)

/-- One control-plane operation applied to the registry state, following
`upload_spec` / `enable_spec` / `disable_spec` / `delete_spec` in
`app/main.py` and `SpecRegistry` in `app/registry.py`:
- `register` refuses duplicates (409) and inserts a disabled entry whose
  status is `valid` exactly when the error list is empty;
- `enable` is a no-op on missing names (404), on `invalid` status (400)
  and on conversion failure; otherwise it sets `enabled`, stores the tool
  names and stores the sub-application in the side table;
- `disable` is a no-op on missing names; otherwise it clears `enabled`
  and `tool_names` and pops the side-table binding;
- `delete` runs `disable` first, then removes the entry. -/
def applyHubOp (r : RegState App) : HubOp App → RegState App
  | .register n errs ov =>
    if (r.specs.lookup n).isSome then r
    else
      { r with specs := (pyDictSet r.specs n
          ⟨false, (if errs.isEmpty then ValidationStatus.valid else .invalid), errs, [], ov⟩) }
  | .enable n conv =>
    match r.specs.lookup n with
    | none => r
    | some e =>
      if e.validation_status = .invalid then r
      else
        match conv with
        | none => r
        | some (app, names) =>
          { specs := pyDictSet r.specs n { e with enabled := true, tool_names := names },
            mcp_apps := pyDictSet r.mcp_apps n app }
  | .disable n =>
    match r.specs.lookup n with
    | none => r
    | some e =>
      { specs := pyDictSet r.specs n { e with enabled := false, tool_names := [] },
        mcp_apps := pyDictPop r.mcp_apps n }
  | .delete n =>
    match r.specs.lookup n with
    | none => r
    | some e =>
      { specs := pyDictPop (pyDictSet r.specs n { e with enabled := false, tool_names := [] }) n,
        mcp_apps := pyDictPop r.mcp_apps n }

/-- The registry starts empty (`SpecRegistry.__init__`). -/
def regInit (App : Type) : RegState App := ⟨[], []⟩

/-- A sequence of control-plane operations applied from the initial
state. -/
def applyHubOps (App : Type) (ops : List (HubOp App)) : RegState App :=
  ops.foldl applyHubOp (regInit App)

/-- `s.strip(c)` for one strip character. -/
def pyStripChar (s : String) (c : Char) : String :=
  String.mk (((s.data.dropWhile (· = c)).reverse.dropWhile (· = c)).reverse)

/-- `s.split("/", 1)`: the part before the first slash and, when a slash
exists, the rest. -/
def splitFirstSlash (s : String) : String × Option String :=
  match splitAtSub s.data ['/'] with
  | some (pre, post) => (String.mk pre, some (String.mk post))
  | none => (s, none)

/-- The path normalization at the top of `MCPDispatcher.__call__`: strip
the mount prefix when `root_path` is set and matches, then ensure a
leading slash. -/
def normalizeDispatchPath (path rootPath : String) : String :=
  let p1 := if rootPath ≠ "" && pyStartsWith path rootPath
            then pyDropChars path rootPath.data.length else path
  if pyStartsWith p1 "/" then p1 else "/" ++ p1

/-- What the dispatcher does with one request: ignore non-HTTP scopes,
answer an error response itself (status plus the `detail` message of the
JSON body built by `_send_error`), or forward to a sub-application with a
rewritten path and root path. -/
inductive DispatchResult (App : Type) where
  | pass
  | reply (status : Nat) (detail : String)
  | forward (app : App) (path : String) (rootPath : String)

/-- `MCPDispatcher.__call__` from `app/mcp_dispatcher.py` up to the
forwarding call (the `ensure_started` suspension before forwarding is the
lifecycle manager's concern, modelled separately). -/
def dispatch (r : RegState App) (scopeType path rootPath : String) : DispatchResult App :=
  if scopeType ≠ "http" && scopeType ≠ "websocket" then .pass
  else
    let p := normalizeDispatchPath path rootPath
    let parts := splitFirstSlash (pyStripChar p '/')
    if parts.1 = "" then
      .reply 404 "Spec name required in path: /mcp/{spec_name}/..."
    else
      let specName := parts.1
      let remaining := "/" ++ (parts.2.getD "")
      match get_mcp_app r specName with
      | none =>
        match r.specs.lookup specName with
        | none => .reply 404 ("Spec '" ++ specName ++ "' not found")
        | some _ =>
          .reply 404 ("Spec '" ++ specName ++ "' is not enabled for MCP exposure")
      | some app => .forward app remaining (rootPath ++ "/" ++ specName)

/-- Where one caller of `LifespanManager.ensure_started` stands:
before its first atomic block, suspended on `initialized.wait()`, or
returned. -/
inductive CallerPhase where
  | atEntry | waiting | finished
deriving DecidableEq

/-- The lifespan-manager state for one name, plus the callers' positions.
`started` is `name in self._started`; `spawned` counts how many background
startup sequences (`asyncio.create_task(run_lifespan())`) were ever
created for the name; `initialized` is the `asyncio.Event` waiters block
on. -/
structure LMState where
  started : Bool
  spawned : Nat
  initialized : Bool
  callers : List CallerPhase

/-- A scheduling choice of the cooperative event loop: run one caller's
next atomic block, or let the background task progress to the point where
it sets `initialized` (either inside the lifespan context or in the
exception handler). -/
inductive LMLabel where
  | callerStep (i : Nat)
  | bgStep

/-- One cooperative step of `ensure_started` (`app/mcp_dispatcher.py`
lines 18-53).  asyncio runs each region between awaits atomically, so the
membership test on `_started`, the creation of both events, the
`create_task` call and the `_started[name]` assignment form one atomic
block, after which the caller suspends on `initialized.wait()`; a
suspended caller resumes only once the event is set; the background task
can set the event only after it has been spawned. -/
def lmStep (s : LMState) : LMLabel → LMState
  | .callerStep i =>
    match s.callers.get? i with
    | some .atEntry =>
      if s.started then { s with callers := s.callers.set i .waiting }
      else { s with started := true, spawned := s.spawned + 1,
                    callers := s.callers.set i .waiting }
    | some .waiting =>
      if s.initialized then { s with callers := s.callers.set i .finished } else s
    | _ => s
  | .bgStep =>
    if s.started then { s with initialized := true } else s

/-- `N` concurrent callers for one uninitialized name. -/
def lmInit (n : Nat) : LMState :=
  ⟨false, 0, false, List.replicate n .atEntry⟩

/-- The state after an arbitrary interleaving of caller and background
steps. -/
def lmRun (n : Nat) (trace : List LMLabel) : LMState :=
  trace.foldl lmStep (lmInit n)

/-- The lifecycle-manager invariant: the spawn count mirrors the
`_started` membership flag (so it never exceeds one), the event can only
be set once the task was spawned, any caller past its entry block has
observed (or set) the flag, and a caller returns only after the event is
set. -/
def LMInv (s : LMState) : Prop :=
  s.spawned = (if s.started then 1 else 0) ∧
  (s.initialized = true → s.started = true) ∧
  (∀ (i : Nat) (pc : CallerPhase),
    s.callers[i]? = some pc → pc ≠ CallerPhase.atEntry → s.started = true) ∧
  (∀ i : Nat, s.callers[i]? = some CallerPhase.finished → s.initialized = true)

/-! ### Auxiliary notions for the sanitizer characterization -/

/-- `['_']` when the flag is set, else nothing. -/
def optUnderscore (b : Bool) : List Char :=
  if b then ['_'] else []

/-- Whether the first character of a run-decomposition source is a
separator (non-alphanumeric): contributes a leading underscore before
stripping. -/
def headSep (ds : List Char) : List Char :=
  match ds with
  | [] => []
  | c :: _ => if isAlnumChar c then [] else ['_']

/-- Whether the last character is a separator: contributes a trailing
underscore before stripping. -/
def lastSep (ds : List Char) : List Char :=
  match ds.reverse with
  | [] => []
  | c :: _ => if isAlnumChar c then [] else ['_']

/-- The trailing underscore produced by collapsing, present only when at
least one alphanumeric run exists. -/
def tailSep (ds : List Char) : List Char :=
  if (runsBy isAlnumChar ds).isEmpty then [] else lastSep ds

/-- The alphanumeric runs of a character list joined by single
underscores. -/
def alnumJoin (ds : List Char) : List Char :=
  List.intercalate ['_'] (runsBy isAlnumChar ds)

/-- Whether the first character satisfies `p` (the flag tracked by the
right fold computing `runsBy`). -/
def headP (p : Char → Bool) (ds : List Char) : Bool :=
  match ds with
  | [] => false
  | c :: _ => p c

/-- Whether a parameter value writes the input field `name`: it is a dict
whose `name` is the (truthy) string `name` and whose location is `path` or
`query`.  (Characterization helper for `build_input_model`.) -/
def eligibleParam (name : String) (p : PyVal) : Bool :=
  match p with
  | .dict d =>
    (match pyGetD d "name" .none_ with
     | .str s => s = name && s ≠ ""
     | _ => false) &&
    ((pyGetD d "in" .none_).isStrEq "path" || (pyGetD d "in" .none_).isStrEq "query")
  | _ => false

/-- The field stored for one (well-typed, eligible) parameter: path
parameters and truthily-`required` parameters are required, others become
optional/nullable; the declared type maps through `OPENAPI_TYPE_MAP` with
`Any` fallback.  (On inputs where `build_input_model` raises instead, the
fallback values here are never compared against anything.) -/
def fieldOfParam (p : PyVal) : FieldSpec :=
  match p with
  | .dict d =>
    let inVal := pyGetD d "in" .none_
    let isReq := inVal.isStrEq "path" || (pyGetD d "required" (.bool false)).truthy
    let ty : PyType :=
      match pyGetD d "schema" (.dict []) with
      | .dict schema =>
        (match pyGetD schema "type" (.str "string") with
         | .str s => openapiTypeMap s
         | _ => .any)
      | _ => .any
    ⟨if isReq then ty else .optional ty, isReq, pyGetD d "description" (.str "")⟩
  | _ => ⟨.any, false, .none_⟩

/-- Whether the operation declares a truthy JSON request body (the
condition under which `build_input_model` adds the `body` field). -/
def hasJsonBody (operation : List (String × PyVal)) : Bool :=
  match pyGetD operation "requestBody" (.dict []) with
  | .dict rb =>
    (match pyGetD rb "content" (.dict []) with
     | .dict content => (pyGetD content "application/json" (.dict [])).truthy
     | _ => false)
  | _ => false

/-- The `/`-separated segments of a character list (used to state the
dot-segment-free domain of the `urljoin` model). -/
def splitSlashes : List Char → List (List Char)
  | [] => [[]]
  | c :: t =>
    if c = '/' then [] :: splitSlashes t
    else
      match splitSlashes t with
      | seg :: rest => (c :: seg) :: rest
      | [] => [[c]]

/-- The registry state invariant (strengthened with the two bookkeeping
clauses that make it inductive: no orphaned side-table entries, and no
`pending` status survives registration, since `upload_spec` always
derives `valid` or `invalid` from the validation errors). -/
def RegInvariant (r : RegState App) : Prop :=
  (∀ n e, r.specs.lookup n = some e →
    (e.enabled = true → e.validation_status = .valid ∧
      ∃ a, r.mcp_apps.lookup n = some a) ∧
    (e.enabled = false → e.tool_names = [] ∧ r.mcp_apps.lookup n = none) ∧
    e.validation_status ≠ .pending) ∧
  (∀ n, r.specs.lookup n = none → r.mcp_apps.lookup n = none)

/-- The first path segment the dispatcher extracts: the part of the
normalized, slash-stripped path before the first remaining slash
(`spec_name` in `MCPDispatcher.__call__`). -/
def firstSegName (path rootPath : String) : String :=
  (splitFirstSlash (pyStripChar (normalizeDispatchPath path rootPath) '/')).1

/-! ### Concrete example documents -/

/-- A registry holding one disabled spec named `dog` (and nothing named
`cat`), for exercising the dispatcher's two 404 variants. -/
def dispatchExampleReg : RegState Unit :=
  ⟨[("dog", ⟨false, ValidationStatus.valid, [], [], none⟩)], []⟩

/-- A document declaring one server with a slash-terminated URL. -/
def oneServerSpec : List (String × PyVal) :=
  [("servers", .list [.dict [("url", .str "https://x/")]])]

/-- A document with a resolvable base URL whose `paths` value is the
integer `3` rather than a mapping. -/
def badPathsSpec : List (String × PyVal) :=
  [("servers", .list [.dict [("url", .str "http://s")]]), ("paths", .int 3)]

/-- A document with one path carrying a `get` and a `put` operation and no
operation ids. -/
def twoMethodSpec : List (String × PyVal) :=
  [("paths", .dict [("/x", .dict [("get", .dict []), ("put", .dict [])])])]

/-- An iteration order of the `http_methods` set literal observed in a
CPython run (string hashing is randomized, so the set's order is some
run-dependent permutation of the seven names, not their written order). -/
def observedSetOrder : List String :=
  ["patch", "delete", "put", "get", "post", "head", "options"]

/-- A path-level parameter list declaring query parameter `x` with
description `pathlevel`. -/
def pathLevelParamsExList : List PyVal :=
  [.dict [("name", .str "x"), ("in", .str "query"), ("description", .str "pathlevel")]]

def pathLevelParamsEx : PyVal :=
  .list pathLevelParamsExList

/-- The same query parameter `x` declared at operation level with
description `oplevel`. -/
def opParamsExList : List PyVal :=
  [.dict [("name", .str "x"), ("in", .str "query"), ("description", .str "oplevel")]]

/-- An operation declaring the clashing operation-level parameter. -/
def opWithSameParamEx : List (String × PyVal) :=
  [("parameters", .list opParamsExList)]

/-! ## Theorems -/

theorem resolveFromServers_wf (spec : List (String × PyVal)) (hwf : serversWf spec = true) :
    resolveFromServers spec =
      match firstServerUrl spec with
      | some u => .ok (pyRstripSlash u)
      | none => .error (.conversionError noServerMsg) := by
  unfold serversWf at hwf
  unfold resolveFromServers firstServerUrl pyGetD
  cases h : pyGet spec "servers" with
  | none => simp [h] at hwf ⊢
  | some v =>
    rw [h] at hwf
    simp only [h, Option.getD]
    cases v with
    | list l =>
      cases l with
      | nil => simp
      | cons s0 t =>
        cases s0 with
        | dict d =>
          cases hu : d.lookup "url" with
          | none => simp [hu]
          | some u =>
            simp only [hu] at hwf ⊢
            cases u <;> simp_all
        | none_ => simp
        | bool b => simp
        | int n => simp
        | str s => simp
        | list l2 => simp
    | none_ => simp at hwf
    | bool b => simp at hwf
    | int n => simp at hwf
    | str s => simp at hwf
    | dict d => simp at hwf

/-- **C2** (amended).  For documents whose `servers` field is well-typed:
a present *and non-empty* override always wins (returned with trailing
slashes trimmed; the empty string is falsy in `if base_url_override:` and
is ignored); otherwise the first declared server URL is returned trimmed;
and the function fails — always with `ConversionError` — exactly when the
override is absent or empty and no first-entry server URL exists. -/
theorem resolve_base_url_amended (spec : List (String × PyVal)) (ov : Option String)
    (hwf : serversWf spec = true) :
    (∀ o, ov = some o → o ≠ "" → resolve_base_url spec ov = .ok (pyRstripSlash o)) ∧
    (overrideTruthy ov = false → ∀ u, firstServerUrl spec = some u →
      resolve_base_url spec ov = .ok (pyRstripSlash u)) ∧
    ((∃ e, resolve_base_url spec ov = .error e) ↔
      (overrideTruthy ov = false ∧ firstServerUrl spec = none)) ∧
    (∀ e, resolve_base_url spec ov = .error e → e = .conversionError noServerMsg) := by
  have hbase := resolveFromServers_wf spec hwf
  refine ⟨?_, ?_, ?_, ?_⟩
  · rintro o rfl ho
    simp [resolve_base_url, ho]
  · intro htr u hu
    cases ov with
    | none => simp [resolve_base_url, hbase, hu]
    | some o =>
      simp [overrideTruthy] at htr
      simp [resolve_base_url, htr, hbase, hu]
  · constructor
    · rintro ⟨e, he⟩
      cases ov with
      | none =>
        simp [resolve_base_url, hbase] at he
        cases hu : firstServerUrl spec with
        | none => simp [overrideTruthy]
        | some u => rw [hu] at he; simp at he
      | some o =>
        by_cases ho : o = ""
        · subst ho
          simp [resolve_base_url, hbase] at he
          cases hu : firstServerUrl spec with
          | none => simp [overrideTruthy]
          | some u => rw [hu] at he; simp at he
        · simp [resolve_base_url, ho] at he
    · rintro ⟨htr, hu⟩
      refine ⟨.conversionError noServerMsg, ?_⟩
      cases ov with
      | none => simp [resolve_base_url, hbase, hu]
      | some o =>
        simp [overrideTruthy] at htr
        simp [resolve_base_url, htr, hbase, hu]
  · intro e he
    have hfrom : resolveFromServers spec = .error e → e = .conversionError noServerMsg := by
      intro h2
      rw [hbase] at h2
      cases hu : firstServerUrl spec with
      | none =>
        rw [hu] at h2
        injection h2 with h3
        exact h3.symm
      | some u => rw [hu] at h2; exact absurd h2 (by simp)
    cases ov with
    | none => exact hfrom (by simpa [resolve_base_url] using he)
    | some o =>
      by_cases ho : o = ""
      · subst ho
        exact hfrom (by simpa [resolve_base_url] using he)
      · simp [resolve_base_url, ho] at he

/-- **C2** (witness).  On a document declaring one server `https://x/` and
no override, resolution succeeds with the trimmed server URL. -/
theorem resolve_base_url_amended_witness :
    serversWf oneServerSpec = true ∧
    resolve_base_url oneServerSpec none = .ok "https://x" := by
  refine ⟨by decide, ?_⟩
  have h := (resolve_base_url_amended oneServerSpec none (by decide)).2.1
    (by decide) "https://x/" (by decide)
  simpa using h

/-- **C2** (counterexample to the claim as stated).  The override
`some ""` is present, so the claim demands the trimmed override `""` be
returned; the code's truthiness test ignores the empty override and
returns the document's server URL instead. -/
theorem resolve_base_url_claim_counterexample :
    resolve_base_url oneServerSpec (some "") = .ok "https://x" ∧
    pyRstripSlash "" = "" ∧
    (Except.ok "https://x" : Except ConvErr String) ≠ .ok "" := by
  refine ⟨rfl, by decide, ?_⟩
  intro h
  injection h with h2
  exact absurd h2 (by decide)

theorem runsBy_snd (p : Char → Bool) (ds : List Char) :
    (ds.foldr (runsByGo p) ([], false)).2 = headP p ds := by
  cases ds with
  | nil => rfl
  | cons c t =>
    show (runsByGo p c (t.foldr (runsByGo p) ([], false))).2 = p c
    rcases t.foldr (runsByGo p) ([], false) with ⟨rs, b⟩
    unfold runsByGo
    by_cases hp : p c
    · simp only [hp, if_true]
      rcases rs with _ | ⟨r, rs2⟩ <;> cases b <;> simp
    · simp [hp]

theorem runsBy_cons_neg (p : Char → Bool) (c : Char) (t : List Char) (hp : p c = false) :
    runsBy p (c :: t) = runsBy p t := by
  unfold runsBy
  show (runsByGo p c (t.foldr (runsByGo p) ([], false))).1 = _
  rcases h : t.foldr (runsByGo p) ([], false) with ⟨rs, b⟩
  simp [runsByGo, hp]

theorem runsBy_ne_nil_of_headP (p : Char → Bool) (t : List Char) (ht : headP p t = true) :
    runsBy p t ≠ [] := by
  cases t with
  | nil => simp [headP] at ht
  | cons d t2 =>
    simp only [headP] at ht
    unfold runsBy
    show (runsByGo p d (t2.foldr (runsByGo p) ([], false))).1 ≠ []
    rcases t2.foldr (runsByGo p) ([], false) with ⟨rs, b⟩
    simp only [runsByGo, ht, if_true]
    rcases rs with _ | ⟨r, rs2⟩ <;> cases b <;> simp

theorem runsBy_cons_pos (p : Char → Bool) (c : Char) (t : List Char) (hp : p c = true) :
    runsBy p (c :: t) =
      (match runsBy p t, headP p t with
       | r :: rs, true => (c :: r) :: rs
       | rs, _ => [c] :: rs) := by
  have h2 := runsBy_snd p t
  unfold runsBy
  show (runsByGo p c (t.foldr (runsByGo p) ([], false))).1 = _
  rcases h : t.foldr (runsByGo p) ([], false) with ⟨rs, b⟩
  rw [h] at h2
  simp only at h2
  rw [← h2]
  simp only [runsByGo, hp, if_true]
  rcases rs with _ | ⟨r, rs2⟩ <;> cases b <;> simp

theorem runsBy_eq_nil_all (p : Char → Bool) (t : List Char) (h : runsBy p t = []) :
    ∀ d ∈ t, p d = false := by
  induction t with
  | nil => simp
  | cons d t2 ih =>
    by_cases hp : p d
    · exact absurd h (runsBy_ne_nil_of_headP p (d :: t2) (by simpa [headP] using hp))
    · rw [runsBy_cons_neg p d t2 (by simpa using hp)] at h
      intro x hx
      rcases List.mem_cons.mp hx with rfl | hx2
      · simpa using hp
      · exact ih h x hx2

theorem runsBy_wf (p : Char → Bool) (ds : List Char) :
    ∀ r ∈ runsBy p ds, r ≠ [] ∧ ∀ c ∈ r, p c = true := by
  induction ds with
  | nil => simp [runsBy]
  | cons c t ih =>
    by_cases hp : p c
    · rw [runsBy_cons_pos p c t hp]
      cases hrs : runsBy p t with
      | nil =>
        cases hh : headP p t <;>
        · intro r hr
          simp at hr
          subst hr
          exact ⟨by simp, by intro x hx; simp at hx; subst hx; exact hp⟩
      | cons r0 rs0 =>
        cases hh : headP p t with
        | false =>
          intro r hr
          rcases List.mem_cons.mp hr with rfl | hr2
          · exact ⟨by simp, by intro x hx; simp at hx; subst hx; exact hp⟩
          · exact ih r (hrs ▸ hr2)
        | true =>
          intro r hr
          rcases List.mem_cons.mp hr with rfl | hr2
          · have h0 := ih r0 (by rw [hrs]; exact List.mem_cons_self r0 rs0)
            refine ⟨by simp, ?_⟩
            intro x hx
            rcases List.mem_cons.mp hx with rfl | hx2
            · exact hp
            · exact h0.2 x hx2
          · exact ih r (by rw [hrs]; exact List.mem_cons_of_mem r0 hr2)
    · rw [runsBy_cons_neg p c t (by simpa using hp)]
      exact ih

theorem underscoreNonWord_eq_alnumMap (cs : List Char) :
    underscoreNonWord cs = cs.map (fun c => if isAlnumChar c then c else '_') := by
  unfold underscoreNonWord
  apply List.map_congr_left
  intro c _
  by_cases h : isAlnumChar c
  · have hw : isWordChar c = true := by
      simp [isAlnumChar] at h
      simp [isWordChar]
      tauto
    simp [hw, h]
  · by_cases hu : c = '_'
    · subst hu
      simp [isWordChar, h]
    · have hw : isWordChar c = false := by
        simp [isAlnumChar] at h
        simp [isWordChar, h, hu]
      simp [hw, h]

theorem intercalate_cons2 (x y : List Char) (ys : List (List Char)) :
    List.intercalate ['_'] (x :: y :: ys) = x ++ '_' :: List.intercalate ['_'] (y :: ys) := by
  simp [List.intercalate, List.intersperse]

theorem intercalate_single (x : List Char) :
    List.intercalate ['_'] [x] = x := by
  simp [List.intercalate]

theorem lastSep_cons (c d : Char) (t : List Char) :
    lastSep (c :: d :: t) = lastSep (d :: t) := by
  unfold lastSep
  rcases h : (d :: t).reverse with _ | ⟨e, es⟩
  · exact absurd h (by simp)
  · have : (c :: d :: t).reverse = e :: (es ++ [c]) := by
      rw [show (c :: d :: t).reverse = (d :: t).reverse ++ [c] by simp, h]
      simp
    rw [this]

theorem intercalate_cons_head (c : Char) (r : List Char) (rs : List (List Char)) :
    List.intercalate ['_'] ((c :: r) :: rs) = c :: List.intercalate ['_'] (r :: rs) := by
  cases rs with
  | nil => rw [intercalate_single, intercalate_single]
  | cons y ys => rw [intercalate_cons2, intercalate_cons2]; simp

theorem collapseGo_cons_ne (b : Bool) (c : Char) (rest : List Char) (hc : ¬ c = '_') :
    collapseUnderscoresGo b (c :: rest) = c :: collapseUnderscoresGo false rest := by
  cases b <;> simp [collapseUnderscoresGo, hc]

theorem collapseGo_true_underscore (rest : List Char) :
    collapseUnderscoresGo true ('_' :: rest) = collapseUnderscoresGo true rest := by
  simp [collapseUnderscoresGo]

theorem collapseGo_false_underscore (rest : List Char) :
    collapseUnderscoresGo false ('_' :: rest) = '_' :: collapseUnderscoresGo true rest := by
  simp [collapseUnderscoresGo]

theorem alnum_ne_underscore (c : Char) (hc : isAlnumChar c = true) : ¬ c = '_' := by
  intro h
  subst h
  exact absurd hc (by decide)

theorem runsBy_nil_eq (p : Char → Bool) : runsBy p [] = [] := rfl

theorem lastSep_of_all_nonalnum (t : List Char) (hne : t ≠ [])
    (hall : ∀ d ∈ t, isAlnumChar d = false) : lastSep t = ['_'] := by
  unfold lastSep
  rcases h : t.reverse with _ | ⟨e, es⟩
  · exact absurd (by simpa using congrArg List.reverse h) hne
  · have he : e ∈ t := by
      rw [← List.mem_reverse, h]
      exact List.mem_cons_self e es
    simp [hall e he]

theorem collapse_map_characterization (ds : List Char) :
    collapseUnderscoresGo true (ds.map (fun c => if isAlnumChar c then c else '_'))
        = alnumJoin ds ++ tailSep ds ∧
    collapseUnderscoresGo false (ds.map (fun c => if isAlnumChar c then c else '_'))
        = headSep ds ++ (alnumJoin ds ++ tailSep ds) := by
  induction ds with
  | nil =>
    constructor <;>
      simp [alnumJoin, tailSep, headSep, runsBy, lastSep, collapseUnderscoresGo,
        List.intercalate]
  | cons c t ih =>
    obtain ⟨ihA, ihB⟩ := ih
    by_cases hc : isAlnumChar c
    · -- alphanumeric head: kept verbatim by the collapse
      have hcu : ¬ c = '_' := alnum_ne_underscore c hc
      have hmap : (c :: t).map (fun x => if isAlnumChar x then x else '_')
          = c :: t.map (fun x => if isAlnumChar x then x else '_') := by simp [hc]
      have hA : collapseUnderscoresGo true ((c :: t).map (fun x => if isAlnumChar x then x else '_'))
          = c :: collapseUnderscoresGo false (t.map (fun x => if isAlnumChar x then x else '_')) := by
        rw [hmap, collapseGo_cons_ne _ _ _ hcu]
      have hB : collapseUnderscoresGo false ((c :: t).map (fun x => if isAlnumChar x then x else '_'))
          = c :: collapseUnderscoresGo false (t.map (fun x => if isAlnumChar x then x else '_')) := by
        rw [hmap, collapseGo_cons_ne _ _ _ hcu]
      have hhead : headSep (c :: t) = [] := by simp [headSep, hc]
      cases ht : headP isAlnumChar t with
      | true =>
        -- the head run of t extends with c
        obtain ⟨d, t2, rfl⟩ : ∃ d t2, t = d :: t2 := by
          cases t with
          | nil => simp [headP] at ht
          | cons d t2 => exact ⟨d, t2, rfl⟩
        have hd : isAlnumChar d = true := by simpa [headP] using ht
        rcases hrt : runsBy isAlnumChar (d :: t2) with _ | ⟨r0, rs0⟩
        · exact absurd hrt (runsBy_ne_nil_of_headP _ _ ht)
        · have hcons : runsBy isAlnumChar (c :: d :: t2) = (c :: r0) :: rs0 := by
            rw [runsBy_cons_pos _ _ _ hc, hrt, ht]
          have hjoin : alnumJoin (c :: d :: t2) = c :: alnumJoin (d :: t2) := by
            unfold alnumJoin
            rw [hcons, hrt, intercalate_cons_head]
          have htail : tailSep (c :: d :: t2) = tailSep (d :: t2) := by
            unfold tailSep
            rw [hcons, hrt, lastSep_cons]
            simp
          have hheadt : headSep (d :: t2) = [] := by simp [headSep, hd]
          constructor
          · rw [hA, ihB, hjoin, htail, hheadt]
            simp
          · rw [hB, ihB, hjoin, htail, hheadt, hhead]
            simp
      | false =>
        have hcons : runsBy isAlnumChar (c :: t) = [c] :: runsBy isAlnumChar t := by
          rw [runsBy_cons_pos _ _ _ hc, ht]
          rcases runsBy isAlnumChar t with _ | ⟨r0, rs0⟩ <;> simp
        rcases hrt : runsBy isAlnumChar t with _ | ⟨r0, rs0⟩
        · -- no run in t at all: t is entirely separators (possibly empty)
          have hjoin : alnumJoin (c :: t) = [c] := by
            unfold alnumJoin
            rw [hcons, hrt, intercalate_single]
          have hjoint : alnumJoin t = [] := by
            unfold alnumJoin
            rw [hrt]
            simp [List.intercalate]
          have htailt : tailSep t = [] := by simp [tailSep, hrt]
          cases t with
          | nil =>
            have htail : tailSep [c] = [] := by
              simp [tailSep, hcons, runsBy_nil_eq, lastSep, hc]
            constructor
            · rw [hA, htail, hjoin]
              simp [collapseUnderscoresGo]
            · rw [hB, htail, hjoin, hhead]
              simp [collapseUnderscoresGo]
          | cons d t2 =>
            have hall := runsBy_eq_nil_all _ _ hrt
            have hd : isAlnumChar d = false := hall d (List.mem_cons_self d t2)
            have htail : tailSep (c :: d :: t2) = ['_'] := by
              unfold tailSep
              rw [hcons, hrt, lastSep_cons, lastSep_of_all_nonalnum _ (by simp) hall]
              simp
            have hheadt : headSep (d :: t2) = ['_'] := by simp [headSep, hd]
            constructor
            · rw [hA, ihB, hjoin, htail, hheadt, hjoint, htailt]
              simp
            · rw [hB, ihB, hjoin, htail, hheadt, hjoint, htailt, hhead]
              simp
        · -- t has runs but starts with a separator
          obtain ⟨d, t2, rfl⟩ : ∃ d t2, t = d :: t2 := by
            cases t with
            | nil => rw [runsBy_nil_eq] at hrt; exact absurd hrt (by simp)
            | cons d t2 => exact ⟨d, t2, rfl⟩
          have hd : isAlnumChar d = false := by simpa [headP] using ht
          have hjoin : alnumJoin (c :: d :: t2) = c :: '_' :: alnumJoin (d :: t2) := by
            unfold alnumJoin
            rw [hcons, hrt, intercalate_cons2]
            simp
          have htail : tailSep (c :: d :: t2) = tailSep (d :: t2) := by
            unfold tailSep
            rw [hcons, hrt, lastSep_cons]
            simp
          have hheadt : headSep (d :: t2) = ['_'] := by simp [headSep, hd]
          constructor
          · rw [hA, ihB, hjoin, htail, hheadt]
            simp
          · rw [hB, ihB, hjoin, htail, hheadt, hhead]
            simp
    · -- separator head: mapped to an underscore
      have hmap : (c :: t).map (fun x => if isAlnumChar x then x else '_')
          = '_' :: t.map (fun x => if isAlnumChar x then x else '_') := by simp [hc]
      have hcons : runsBy isAlnumChar (c :: t) = runsBy isAlnumChar t :=
        runsBy_cons_neg _ _ _ (by simpa using hc)
      have hjoin : alnumJoin (c :: t) = alnumJoin t := by unfold alnumJoin; rw [hcons]
      have htail : tailSep (c :: t) = tailSep t := by
        unfold tailSep
        rw [hcons]
        rcases hrt : runsBy isAlnumChar t with _ | ⟨r0, rs0⟩
        · simp
        · have htne : t ≠ [] := by
            intro h
            subst h
            rw [runsBy_nil_eq] at hrt
            exact absurd hrt (by simp)
          obtain ⟨d, t2, rfl⟩ : ∃ d t2, t = d :: t2 := by
            cases t with
            | nil => exact absurd rfl htne
            | cons d t2 => exact ⟨d, t2, rfl⟩
          rw [lastSep_cons]
      have hhead : headSep (c :: t) = ['_'] := by simp [headSep, hc]
      constructor
      · rw [hmap, collapseGo_true_underscore, ihA, hjoin, htail]
      · rw [hmap, collapseGo_false_underscore, ihA, hjoin, htail, hhead]
        simp

theorem strip_around (l1 l2 core : List Char)
    (hu : l1 = [] ∨ l1 = ['_']) (hv : l2 = [] ∨ l2 = ['_'])
    (h1 : ∃ d ds2, core = d :: ds2 ∧ ¬ d = '_')
    (h2 : ∃ e es, core.reverse = e :: es ∧ ¬ e = '_') :
    stripUnderscores (l1 ++ core ++ l2) = core := by
  obtain ⟨d, ds2, hcore, hd⟩ := h1
  obtain ⟨e, es, hrev, he⟩ := h2
  unfold stripUnderscores
  have step1 : (l1 ++ core ++ l2).dropWhile (· = '_') = core ++ l2 := by
    rcases hu with rfl | rfl <;> simp [hcore, List.dropWhile_cons, hd]
  rw [step1]
  have step2 : (core ++ l2).reverse.dropWhile (· = '_') = core.reverse := by
    rw [List.reverse_append]
    rcases hv with rfl | rfl <;> rw [hrev] <;> simp [List.dropWhile_cons, he]
  rw [step2, List.reverse_reverse]

theorem join_head_alnum (rs : List (List Char))
    (hwf : ∀ r ∈ rs, r ≠ [] ∧ ∀ c ∈ r, isAlnumChar c = true) (hne : rs ≠ []) :
    ∃ d ds2, List.intercalate ['_'] rs = d :: ds2 ∧ isAlnumChar d = true := by
  cases rs with
  | nil => exact absurd rfl hne
  | cons r0 rs0 =>
    obtain ⟨hr0ne, hr0⟩ := hwf r0 (List.mem_cons_self r0 rs0)
    cases r0 with
    | nil => exact absurd rfl hr0ne
    | cons d ds0 =>
      exact ⟨d, List.intercalate ['_'] (ds0 :: rs0), intercalate_cons_head d ds0 rs0,
        hr0 d (List.mem_cons_self d ds0)⟩

theorem join_rev_head_alnum (rs : List (List Char))
    (hwf : ∀ r ∈ rs, r ≠ [] ∧ ∀ c ∈ r, isAlnumChar c = true) (hne : rs ≠ []) :
    ∃ e es, (List.intercalate ['_'] rs).reverse = e :: es ∧ isAlnumChar e = true := by
  induction rs with
  | nil => exact absurd rfl hne
  | cons r0 rs0 ih =>
    cases rs0 with
    | nil =>
      rw [intercalate_single]
      obtain ⟨hr0ne, hr0⟩ := hwf r0 (List.mem_cons_self r0 [])
      rcases h : r0.reverse with _ | ⟨e, es⟩
      · exact absurd (by simpa using congrArg List.reverse h) hr0ne
      · refine ⟨e, es, rfl, hr0 e ?_⟩
        rw [← List.mem_reverse, h]
        exact List.mem_cons_self e es
    | cons r1 rs1 =>
      rw [intercalate_cons2]
      obtain ⟨e, es, hrev, he⟩ := ih
        (fun r hr => hwf r (List.mem_cons_of_mem r0 hr)) (by simp)
      refine ⟨e, es ++ ('_' :: r0.reverse), ?_, he⟩
      rw [List.reverse_append, List.reverse_cons, hrev]
      simp

theorem headSep_cases (ds : List Char) : headSep ds = [] ∨ headSep ds = ['_'] := by
  unfold headSep
  cases ds with
  | nil => exact Or.inl rfl
  | cons c t =>
    by_cases h : isAlnumChar c
    · exact Or.inl (by simp [h])
    · exact Or.inr (by simp [h])

theorem tailSep_cases (ds : List Char) : tailSep ds = [] ∨ tailSep ds = ['_'] := by
  unfold tailSep lastSep
  by_cases h : (runsBy isAlnumChar ds).isEmpty
  · exact Or.inl (by simp [h])
  · simp only [h, Bool.false_eq_true, if_false]
    rcases ds.reverse with _ | ⟨c, t⟩
    · exact Or.inl rfl
    · by_cases h2 : isAlnumChar c
      · exact Or.inl (by simp [h2])
      · exact Or.inr (by simp [h2])

theorem sanitize_eq_join (s : String) :
    sanitize_tool_name s = specSanitizeAmended s := by
  unfold sanitize_tool_name specSanitizeAmended
  congr 1
  rw [underscoreNonWord_eq_alnumMap]
  show stripUnderscores
      (collapseUnderscoresGo false
        ((subPlaceholders s.data).map (fun c => if isAlnumChar c then c else '_')))
    = List.intercalate ['_'] (runsBy isAlnumChar (subPlaceholders s.data))
  rw [(collapse_map_characterization (subPlaceholders s.data)).2]
  rcases hrt : runsBy isAlnumChar (subPlaceholders s.data) with _ | ⟨r0, rs0⟩
  · have halnum : alnumJoin (subPlaceholders s.data) = [] := by
      unfold alnumJoin
      rw [hrt]
      simp [List.intercalate]
    have htail : tailSep (subPlaceholders s.data) = [] := by simp [tailSep, hrt]
    rw [halnum, htail]
    rcases headSep_cases (subPlaceholders s.data) with h | h <;> rw [h] <;> rfl
  · have hwf : ∀ r ∈ r0 :: rs0, r ≠ [] ∧ ∀ c ∈ r, isAlnumChar c = true := by
      rw [← hrt]
      exact runsBy_wf isAlnumChar (subPlaceholders s.data)
    have hcore : alnumJoin (subPlaceholders s.data) = List.intercalate ['_'] (r0 :: rs0) := by
      unfold alnumJoin
      rw [hrt]
    rw [hcore, ← List.append_assoc]
    apply strip_around _ _ _ (headSep_cases _) (tailSep_cases _)
    · obtain ⟨d, ds2, hj, hd⟩ := join_head_alnum (r0 :: rs0) hwf (by simp)
      exact ⟨d, ds2, hj, alnum_ne_underscore d hd⟩
    · obtain ⟨e, es, hj, he⟩ := join_rev_head_alnum (r0 :: rs0) hwf (by simp)
      exact ⟨e, es, hj, alnum_ne_underscore e he⟩

/-- **C3** (counterexample to the claim as stated).  The claim's rule
"replace every non-alphanumeric/non-underscore run with a single
underscore, trim leading/trailing underscores" leaves the identifier
`a__b` unchanged; the code additionally collapses the pre-existing
underscore run, producing `a_b`. -/
theorem generate_tool_name_claim_counterexample :
    generate_tool_name "get" "/x" (some "a__b") = "a_b" ∧
    claimSanitize "a__b" = "a__b" ∧
    ("a_b" : String) ≠ "a__b" :=
  ⟨rfl, rfl, by decide⟩

/-- **C3** (amended).  The generated name for a declared operation id is
the id with placeholders replaced, every separator run — non-alphanumeric
characters *and pre-existing underscores alike* — collapsed to a single
underscore, and the ends trimmed (equivalently: the alphanumeric runs
joined by single underscores); when no id is declared the name is
`METHOD__sanitized_path`.  In particular `getPet` on `/pets/` + placeholder
`petId` yields `getPet`, and the same path under `GET` with no id yields
`GET__pets_petId`. -/
theorem generate_tool_name_amended :
    (∀ s : String, sanitize_tool_name s = specSanitizeAmended s) ∧
    generate_tool_name "get" "/pets/{petId}" (some "getPet") = "getPet" ∧
    generate_tool_name "get" "/pets/{petId}" none = "GET__pets_petId" ∧
    (∀ method path : String,
      generate_tool_name method path none = pyUpper method ++ "__" ++ sanitize_tool_name path) :=
  ⟨sanitize_eq_join, rfl, rfl, fun _ _ => rfl⟩

theorem resolve_base_url_eq (spec : List (String × PyVal)) (ov : Option String)
    (hwf : serversWf spec = true) :
    resolve_base_url spec ov =
      match ov with
      | some o =>
        if o ≠ "" then .ok (pyRstripSlash o)
        else
          (match firstServerUrl spec with
           | some u => .ok (pyRstripSlash u)
           | none => .error (.conversionError noServerMsg))
      | none =>
        (match firstServerUrl spec with
         | some u => .ok (pyRstripSlash u)
         | none => .error (.conversionError noServerMsg)) := by
  have h := resolveFromServers_wf spec hwf
  unfold resolve_base_url
  cases ov with
  | none => exact h
  | some o =>
    by_cases ho : o = "" <;> simp [ho, h]

theorem processParam_wf (param : PyVal) (hwf : paramWfB param = true)
    (fields : List (String × FieldSpec)) :
    ∃ f2, processParam fields param = .ok f2 := by
  cases param
  case dict p =>
    simp only [paramWfB] at hwf
    by_cases hname : (pyGetD p "name" .none_).truthy = true
    · by_cases hin : ((pyGetD p "in" .none_).isStrEq "path"
          || (pyGetD p "in" .none_).isStrEq "query") = true
      · rw [hin] at hwf
        simp only [if_true, eq_self_iff_true, ite_true, hname, Bool.and_eq_true] at hwf
        obtain ⟨hhash, hrest⟩ := hwf
        cases hv : pyGetD p "name" .none_ with
        | str s =>
          rw [hv] at hrest
          have hs : (PyVal.str s).truthy = true := hv ▸ hname
          cases hschema : pyGetD p "schema" (.dict []) with
          | dict schema =>
            rw [hschema] at hrest
            simp at hrest
            have htype : ∃ ty, openapi_type_to_python schema = .ok ty := by
              unfold openapi_type_to_python
              cases ht : pyGetD schema "type" (.str "string") with
              | str s2 => exact ⟨openapiTypeMap s2, rfl⟩
              | list l => rw [ht] at hrest; simp [pyHashable] at hrest
              | dict d => rw [ht] at hrest; simp [pyHashable] at hrest
              | none_ => exact ⟨.any, rfl⟩
              | bool b => exact ⟨.any, rfl⟩
              | int n => exact ⟨.any, rfl⟩
            obtain ⟨ty, hty⟩ := htype
            refine ⟨pyDictSet fields s
              ⟨(if ((pyGetD p "in" .none_).isStrEq "path"
                    || (pyGetD p "required" (.bool false)).truthy)
                then ty else .optional ty),
               ((pyGetD p "in" .none_).isStrEq "path"
                 || (pyGetD p "required" (.bool false)).truthy),
               pyGetD p "description" (.str "")⟩, ?_⟩
            unfold processParam
            simp only [hv, hschema, hty, hs, hin, Bool.not_true]
            simp
          | none_ => rw [hschema] at hrest; simp at hrest
          | bool b => rw [hschema] at hrest; simp at hrest
          | int n => rw [hschema] at hrest; simp at hrest
          | str s2 => rw [hschema] at hrest; simp at hrest
          | list l => rw [hschema] at hrest; simp at hrest
        | none_ => rw [hv] at hname; simp [PyVal.truthy] at hname
        | bool b =>
          rw [hv] at hname hrest
          simp [PyVal.truthy] at hname
          simp [PyVal.truthy, hname] at hrest
        | int n =>
          rw [hv] at hname hrest
          simp [PyVal.truthy] at hname
          simp [PyVal.truthy, hname] at hrest
        | list l => rw [hv] at hhash; simp [pyHashable] at hhash
        | dict d => rw [hv] at hhash; simp [pyHashable] at hhash
      · have h2 : ((pyGetD p "in" .none_).isStrEq "path"
            || (pyGetD p "in" .none_).isStrEq "query") = false := by
          rwa [Bool.not_eq_true] at hin
        refine ⟨fields, ?_⟩
        unfold processParam
        simp [hname, h2]
    · have h0 : (pyGetD p "name" .none_).truthy = false := by
        rwa [Bool.not_eq_true] at hname
      exact ⟨fields, by unfold processParam; simp [h0]⟩
  all_goals simp [paramWfB] at hwf

theorem foldl_processParam_wf (params : List PyVal) (h : params.all paramWfB = true) :
    ∀ fields, ∃ f2, params.foldlM processParam fields = Except.ok f2 := by
  induction params with
  | nil => intro fields; exact ⟨fields, rfl⟩
  | cons q t ih =>
    intro fields
    simp only [List.all_cons, Bool.and_eq_true] at h
    obtain ⟨f1, h1⟩ := processParam_wf q h.1 fields
    obtain ⟨f2, h2⟩ := ih h.2 f1
    refine ⟨f2, ?_⟩
    rw [List.foldlM_cons, h1]
    simpa using h2

theorem processBody_wf (operation : List (String × PyVal))
    (hwf : (match pyGetD operation "requestBody" (.dict []) with
            | .dict rb =>
              (match pyGetD rb "content" (.dict []) with
               | .dict _ => true
               | _ => false)
            | _ => false) = true)
    (fields : List (String × FieldSpec)) :
    ∃ f2, processBody operation fields = .ok f2 := by
  cases hrb : pyGetD operation "requestBody" (.dict []) with
  | dict rb =>
    rw [hrb] at hwf
    have hwf2 : (match pyGetD rb "content" (.dict []) with
        | PyVal.dict _ => true
        | _ => false) = true := hwf
    cases hct : pyGetD rb "content" (.dict []) with
    | dict content =>
      by_cases hj : (pyGetD content "application/json" (.dict [])).truthy = true
      · refine ⟨pyDictSet fields "body"
          ⟨(if (pyGetD rb "required" (.bool false)).truthy then PyType.dict else .optional .dict),
           (pyGetD rb "required" (.bool false)).truthy,
           pyGetD rb "description" (.str "JSON request body")⟩, ?_⟩
        simp only [processBody, hrb, hct, hj, if_true]
      · have hj2 : (pyGetD content "application/json" (.dict [])).truthy = false := by
          rwa [Bool.not_eq_true] at hj
        refine ⟨fields, ?_⟩
        simp only [processBody, hrb, hct, hj2, Bool.false_eq_true, if_false]
    | none_ => rw [hct] at hwf2; simp at hwf2
    | bool b => rw [hct] at hwf2; simp at hwf2
    | int n => rw [hct] at hwf2; simp at hwf2
    | str s => rw [hct] at hwf2; simp at hwf2
    | list l => rw [hct] at hwf2; simp at hwf2
  | none_ => rw [hrb] at hwf; simp at hwf
  | bool b => rw [hrb] at hwf; simp at hwf
  | int n => rw [hrb] at hwf; simp at hwf
  | str s => rw [hrb] at hwf; simp at hwf
  | list l => rw [hrb] at hwf; simp at hwf

theorem build_input_model_wf (operation : List (String × PyVal)) (pp : List PyVal)
    (hpp : pp.all paramWfB = true) (hop : operationWfB operation = true) :
    ∃ f, build_input_model operation (.list pp) = .ok f := by
  simp only [operationWfB, Bool.and_eq_true] at hop
  obtain ⟨⟨hid, hparams⟩, hbody⟩ := hop
  cases hps : pyGetD operation "parameters" (.list []) with
  | list opp =>
    rw [hps] at hparams
    have hparams2 : opp.all paramWfB = true := hparams
    have hall : (pp ++ opp).all paramWfB = true := by
      simp [List.all_append, hpp, hparams2]
    obtain ⟨f1, h1⟩ := foldl_processParam_wf (pp ++ opp) hall []
    obtain ⟨f2, h2⟩ := processBody_wf operation hbody f1
    refine ⟨f2, ?_⟩
    simp only [build_input_model, hps]
    rw [h1]
    simpa using h2
  | none_ => rw [hps] at hparams; simp at hparams
  | bool b => rw [hps] at hparams; simp at hparams
  | int n => rw [hps] at hparams; simp at hparams
  | str s => rw [hps] at hparams; simp at hparams
  | dict d => rw [hps] at hparams; simp at hparams

theorem checkHandlerParam_wf (param : PyVal) (hwf : paramWfB param = true) :
    checkHandlerParam param = .ok () := by
  cases param
  case dict p =>
    simp only [paramWfB] at hwf
    show (if ((pyGetD p "in" PyVal.none_).isStrEq "path"
            || (pyGetD p "in" PyVal.none_).isStrEq "query") = true then
        (match List.lookup "name" p with
         | some v => if pyHashable v = true then Except.ok () else Except.error ConvErr.typeError
         | none => Except.ok ())
      else Except.ok ()) = Except.ok ()
    by_cases hin : ((pyGetD p "in" .none_).isStrEq "path"
        || (pyGetD p "in" .none_).isStrEq "query") = true
    · rw [hin] at hwf
      rw [if_pos rfl] at hwf
      simp only [eq_self_iff_true, ite_true, Bool.and_eq_true] at hwf
      rw [hin, if_pos rfl]
      cases hn : p.lookup "name" with
      | none => rfl
      | some v =>
        have hv : pyGetD p "name" .none_ = v := by simp [pyGetD, pyGet, hn]
        rw [hv] at hwf
        simp [hwf.1]
    · have h2 : ((pyGetD p "in" .none_).isStrEq "path"
          || (pyGetD p "in" .none_).isStrEq "query") = false := by
        rwa [Bool.not_eq_true] at hin
      rw [h2]
      simp
  all_goals simp [paramWfB] at hwf

theorem foldl_checkHandlerParam_wf (params : List PyVal) (h : params.all paramWfB = true) :
    params.foldlM (fun _ q => checkHandlerParam q) () = .ok () := by
  induction params with
  | nil => rfl
  | cons q t ih =>
    simp only [List.all_cons, Bool.and_eq_true] at h
    rw [List.foldlM_cons, checkHandlerParam_wf q h.1]
    simpa using ih h.2

theorem generate_tool_name_empty (method pathStr : String) :
    generate_tool_name method pathStr (some "") = generate_tool_name method pathStr none := rfl

theorem toolNameFor_wf (method pathStr : String) (operation : List (String × PyVal))
    (hid : (!(pyGetD operation "operationId" .none_).truthy
        || (match pyGetD operation "operationId" .none_ with
            | PyVal.str _ => true
            | _ => false)) = true) :
    toolNameFor method pathStr operation = .ok (pureOpName method pathStr operation) := by
  unfold toolNameFor pureOpName
  cases hv : pyGetD operation "operationId" .none_ with
  | str s =>
    by_cases hs : s = ""
    · subst hs
      simp [PyVal.truthy, generate_tool_name_empty]
    · simp [PyVal.truthy, hs]
  | none_ => simp [PyVal.truthy]
  | bool b =>
    rw [hv] at hid
    cases b with
    | false => simp [PyVal.truthy]
    | true => simp [PyVal.truthy] at hid
  | int n =>
    rw [hv] at hid
    by_cases hn : n = 0
    · subst hn; simp [PyVal.truthy]
    · simp [PyVal.truthy, hn] at hid
  | list l =>
    rw [hv] at hid
    cases l with
    | nil => simp [PyVal.truthy]
    | cons x xs => simp [PyVal.truthy] at hid
  | dict d =>
    rw [hv] at hid
    cases d with
    | nil => simp [PyVal.truthy]
    | cons kv t => simp [PyVal.truthy] at hid

theorem processMethod_wf (pathStr : String) (item : List (String × PyVal))
    (acc : List String) (m : String)
    (hplv : ∃ pl, pyGetD item "parameters" (.list []) = .list pl ∧ pl.all paramWfB = true)
    (hops : ∀ op, item.lookup m = some (.dict op) → operationWfB op = true) :
    processMethod pathStr item acc m =
      .ok (acc ++ (match item.lookup m with
                   | some (.dict op) => [pureOpName m pathStr op]
                   | _ => [])) := by
  obtain ⟨pl, hpl, hplwf⟩ := hplv
  cases hm : item.lookup m with
  | none => simp [processMethod, hm]
  | some opVal =>
    cases opVal with
    | dict operation =>
      have hop := hops operation hm
      have hop2 := hop
      simp only [operationWfB, Bool.and_eq_true] at hop2
      obtain ⟨⟨hid, hparams⟩, hbody⟩ := hop2
      have hname := toolNameFor_wf m pathStr operation (by
        cases h : (pyGetD operation "operationId" .none_) <;> simp_all)
      obtain ⟨fields, hfields⟩ := build_input_model_wf operation pl hplwf hop
      cases hps : pyGetD operation "parameters" (.list []) with
      | list opp =>
        rw [hps] at hparams
        have hoppwf : opp.all paramWfB = true := hparams
        have hcheck : (pl ++ opp).foldlM (fun _ q => checkHandlerParam q) () = .ok () :=
          foldl_checkHandlerParam_wf (pl ++ opp) (by simp [List.all_append, hplwf, hoppwf])
        simp only [processMethod, hm, hname, hpl, hfields, hps, hcheck]
        show (fun _ => acc ++ [pureOpName m pathStr operation]) <$>
            (pl ++ opp).foldlM (fun _ p => checkHandlerParam p) ()
          = Except.ok (acc ++ [pureOpName m pathStr operation])
        rw [hcheck]
        rfl
      | none_ => rw [hps] at hparams; simp at hparams
      | bool b => rw [hps] at hparams; simp at hparams
      | int n => rw [hps] at hparams; simp at hparams
      | str s => rw [hps] at hparams; simp at hparams
      | dict d => rw [hps] at hparams; simp at hparams
    | none_ => simp [processMethod, hm]
    | bool b => simp [processMethod, hm]
    | int n => simp [processMethod, hm]
    | str s => simp [processMethod, hm]
    | list l => simp [processMethod, hm]

theorem foldl_processMethod_wf (mo : List String) (pathStr : String)
    (item : List (String × PyVal)) (acc : List String)
    (hplv : ∃ pl, pyGetD item "parameters" (.list []) = .list pl ∧ pl.all paramWfB = true)
    (hops : ∀ m ∈ mo, ∀ op, item.lookup m = some (.dict op) → operationWfB op = true) :
    mo.foldlM (processMethod pathStr item) acc = .ok (acc ++ pathToolNames mo pathStr item) := by
  induction mo generalizing acc with
  | nil => simp [pathToolNames]; rfl
  | cons m mo2 ih =>
    rw [List.foldlM_cons]
    rw [processMethod_wf pathStr item acc m hplv (hops m (List.mem_cons_self m mo2))]
    have ih2 := ih (acc ++ (match item.lookup m with
                            | some (.dict op) => [pureOpName m pathStr op]
                            | _ => []))
      (fun m2 hm2 => hops m2 (List.mem_cons_of_mem m hm2))
    rw [show (Except.ok (ε := ConvErr) (acc ++ (match item.lookup m with
          | some (.dict op) => [pureOpName m pathStr op]
          | _ => []))) >>= (fun x => mo2.foldlM (processMethod pathStr item) x)
        = mo2.foldlM (processMethod pathStr item)
            (acc ++ (match item.lookup m with
                     | some (.dict op) => [pureOpName m pathStr op]
                     | _ => [])) from rfl]
    rw [ih2]
    unfold pathToolNames
    rw [List.filterMap_cons]
    cases hm : item.lookup m with
    | none => simp [pathToolNames]
    | some opVal =>
      cases opVal <;> simp [pathToolNames]

theorem foldl_processPathItem_wf (mo : List String) (hmo : ∀ m ∈ mo, m ∈ httpMethodsList)
    (paths : List (String × PyVal)) (acc : List String)
    (h : paths.all (fun e => pathItemWfB e.2) = true) :
    paths.foldlM (processPathItem mo) acc =
      .ok (acc ++ paths.flatMap (fun e =>
        match e.2 with
        | PyVal.dict item => pathToolNames mo e.1 item
        | _ => [])) := by
  induction paths generalizing acc with
  | nil => simp; rfl
  | cons e t ih =>
    obtain ⟨pathStr, itemVal⟩ := e
    simp only [List.all_cons, Bool.and_eq_true] at h
    obtain ⟨h1, ht⟩ := h
    rw [List.foldlM_cons]
    cases itemVal with
    | dict item =>
      simp only [pathItemWfB, Bool.and_eq_true] at h1
      obtain ⟨hpl0, hops0⟩ := h1
      have hplv : ∃ pl, pyGetD item "parameters" (.list []) = .list pl
          ∧ pl.all paramWfB = true := by
        cases hps : pyGetD item "parameters" (.list []) with
        | list pl => rw [hps] at hpl0; exact ⟨pl, rfl, hpl0⟩
        | none_ => rw [hps] at hpl0; simp at hpl0
        | bool b => rw [hps] at hpl0; simp at hpl0
        | int n => rw [hps] at hpl0; simp at hpl0
        | str s => rw [hps] at hpl0; simp at hpl0
        | dict d => rw [hps] at hpl0; simp at hpl0
      have hops : ∀ m ∈ mo, ∀ op, item.lookup m = some (.dict op) → operationWfB op = true := by
        intro m hm op hop
        have h2 := List.all_eq_true.mp hops0 m (hmo m hm)
        rw [hop] at h2
        exact h2
      have hstep := foldl_processMethod_wf mo pathStr item acc hplv hops
      rw [show processPathItem mo acc (pathStr, PyVal.dict item)
          = mo.foldlM (processMethod pathStr item) acc from rfl]
      rw [hstep]
      rw [show (Except.ok (ε := ConvErr) (acc ++ pathToolNames mo pathStr item)) >>=
            (fun x => t.foldlM (processPathItem mo) x)
          = t.foldlM (processPathItem mo) (acc ++ pathToolNames mo pathStr item) from rfl]
      rw [ih (acc ++ pathToolNames mo pathStr item) ht]
      simp
    | none_ =>
      rw [show processPathItem mo acc (pathStr, PyVal.none_) = Except.ok acc from rfl]
      rw [show (Except.ok (ε := ConvErr) acc) >>= (fun x => t.foldlM (processPathItem mo) x)
          = t.foldlM (processPathItem mo) acc from rfl]
      rw [ih acc ht]
      simp
    | bool b =>
      rw [show processPathItem mo acc (pathStr, PyVal.bool b) = Except.ok acc from rfl]
      rw [show (Except.ok (ε := ConvErr) acc) >>= (fun x => t.foldlM (processPathItem mo) x)
          = t.foldlM (processPathItem mo) acc from rfl]
      rw [ih acc ht]
      simp
    | int n =>
      rw [show processPathItem mo acc (pathStr, PyVal.int n) = Except.ok acc from rfl]
      rw [show (Except.ok (ε := ConvErr) acc) >>= (fun x => t.foldlM (processPathItem mo) x)
          = t.foldlM (processPathItem mo) acc from rfl]
      rw [ih acc ht]
      simp
    | str s =>
      rw [show processPathItem mo acc (pathStr, PyVal.str s) = Except.ok acc from rfl]
      rw [show (Except.ok (ε := ConvErr) acc) >>= (fun x => t.foldlM (processPathItem mo) x)
          = t.foldlM (processPathItem mo) acc from rfl]
      rw [ih acc ht]
      simp
    | list l =>
      rw [show processPathItem mo acc (pathStr, PyVal.list l) = Except.ok acc from rfl]
      rw [show (Except.ok (ε := ConvErr) acc) >>= (fun x => t.foldlM (processPathItem mo) x)
          = t.foldlM (processPathItem mo) acc from rfl]
      rw [ih acc ht]
      simp

theorem build_tool_names_wf_eq (mo : List String) (hmo : ∀ m ∈ mo, m ∈ httpMethodsList)
    (spec : List (String × PyVal)) (ov : Option String) (hwf : specWfB spec = true) :
    build_tool_names mo spec ov
      = (resolve_base_url spec ov).map (fun _ => collectToolNames mo spec) := by
  unfold build_tool_names
  cases hr : resolve_base_url spec ov with
  | error e => rfl
  | ok b =>
    rw [show ((Except.ok (ε := ConvErr) b) >>= (fun _ =>
        (match pyGetD spec "paths" (.dict []) with
         | PyVal.dict paths => paths.foldlM (processPathItem mo) []
         | _ => Except.error ConvErr.typeError)))
      = (match pyGetD spec "paths" (.dict []) with
         | PyVal.dict paths => paths.foldlM (processPathItem mo) []
         | _ => Except.error ConvErr.typeError) from rfl]
    simp only [specWfB] at hwf
    cases hp : pyGetD spec "paths" (.dict []) with
    | dict paths =>
      rw [hp] at hwf
      have hall : paths.all (fun e => pathItemWfB e.2) = true := hwf
      rw [show (match PyVal.dict paths with
            | PyVal.dict paths => List.foldlM (processPathItem mo) [] paths
            | _ => Except.error ConvErr.typeError)
          = paths.foldlM (processPathItem mo) [] from rfl]
      rw [foldl_processPathItem_wf mo hmo paths [] hall]
      unfold collectToolNames
      rw [hp]
      simp [Except.map]
    | none_ => rw [hp] at hwf; simp at hwf
    | bool b2 => rw [hp] at hwf; simp at hwf
    | int n => rw [hp] at hwf; simp at hwf
    | str s => rw [hp] at hwf; simp at hwf
    | list l => rw [hp] at hwf; simp at hwf

/-- **C4** (counterexample to the claim as stated).  `badPathsSpec` has a
resolvable base URL (`http://s`), yet conversion raises a `TypeError`
(`.items()` on the integer `paths` value) instead of succeeding — so
"no base URL" is not the only hard failure and malformed content of the
wrong type does not degrade gracefully. -/
theorem convert_graceful_claim_counterexample :
    resolve_base_url badPathsSpec none = .ok "http://s" ∧
    build_tool_names httpMethodsList badPathsSpec none = .error .typeError :=
  ⟨rfl, rfl⟩

/-- **C4** (amended).  For *well-typed* documents
(`specWfB`/`serversWf`: `paths` a mapping, parameters lists of mappings
with hashable names and string truthy names, schemas mappings with
hashable types, request bodies and contents mappings, truthy operation
ids strings, servers well-typed): conversion fails with `ConversionError`
if and only if no base URL can be resolved (override absent or empty and
no first-entry server URL), that is its only failure, and whenever a base
URL resolves the conversion succeeds, skipping missing fields and
non-path/query parameter locations rather than raising. -/
theorem convert_error_amended (mo : List String) (spec : List (String × PyVal))
    (ov : Option String) (hmo : ∀ m ∈ mo, m ∈ httpMethodsList)
    (hpaths : specWfB spec = true) (hservers : serversWf spec = true) :
    ((∃ msg, build_tool_names mo spec ov = .error (.conversionError msg)) ↔
      (overrideTruthy ov = false ∧ firstServerUrl spec = none)) ∧
    (∀ e, build_tool_names mo spec ov = .error e → e = .conversionError noServerMsg) ∧
    ((overrideTruthy ov = true ∨ firstServerUrl spec ≠ none) →
      build_tool_names mo spec ov = .ok (collectToolNames mo spec)) := by
  have hb := build_tool_names_wf_eq mo hmo spec ov hpaths
  have hre := resolve_base_url_eq spec ov hservers
  have key : (overrideTruthy ov = false ∧ firstServerUrl spec = none ∧
        resolve_base_url spec ov = .error (.conversionError noServerMsg)) ∨
      ((overrideTruthy ov = true ∨ firstServerUrl spec ≠ none) ∧
        ∃ u, resolve_base_url spec ov = .ok u) := by
    cases ov with
    | none =>
      cases hfs : firstServerUrl spec with
      | none => exact Or.inl ⟨rfl, rfl, by rw [hre, hfs]⟩
      | some u => exact Or.inr ⟨Or.inr (by simp [hfs]), ⟨pyRstripSlash u, by rw [hre, hfs]⟩⟩
    | some o =>
      by_cases ho : o = ""
      · subst ho
        cases hfs : firstServerUrl spec with
        | none => exact Or.inl ⟨rfl, rfl, by rw [hre]; simp [hfs]⟩
        | some u =>
          exact Or.inr ⟨Or.inr (by simp [hfs]), ⟨pyRstripSlash u, by rw [hre]; simp [hfs]⟩⟩
      · refine Or.inr ⟨Or.inl (by simp [overrideTruthy, ho]), ⟨pyRstripSlash o, ?_⟩⟩
        rw [hre]
        simp [ho]
  rcases key with ⟨htr, hfs, hres⟩ | ⟨hcond, u, hres⟩
  · rw [hres] at hb
    refine ⟨⟨fun _ => ⟨htr, hfs⟩, fun _ => ⟨noServerMsg, hb⟩⟩, ?_, ?_⟩
    · intro e he
      rw [hb] at he
      injection he with h2
      exact h2.symm
    · intro hcond
      rcases hcond with h | h
      · exact Bool.noConfusion (htr ▸ h)
      · exact absurd hfs h
  · rw [hres] at hb
    refine ⟨⟨?_, ?_⟩, ?_, fun _ => hb⟩
    · rintro ⟨msg, hmsg⟩
      rw [hb] at hmsg
      exact absurd hmsg (by simp [Except.map])
    · rintro ⟨htr, hfs⟩
      rcases hcond with h | h
      · exact Bool.noConfusion (htr ▸ h)
      · exact absurd hfs h
    · intro e he
      rw [hb] at he
      exact absurd he (by simp [Except.map])

/-- **C4** (witness).  On a well-typed two-operation document with an
override, conversion succeeds with the two generated names. -/
theorem convert_error_amended_witness :
    build_tool_names httpMethodsList twoMethodSpec (some "http://b")
      = .ok ["GET__x", "PUT__x"] := by
  have h := (convert_error_amended httpMethodsList twoMethodSpec (some "http://b")
    (fun m hm => hm) (by decide) (by decide)).2.2 (Or.inl rfl)
  rw [h]
  rfl

/-- **C6** (counterexample to the claim as stated).  The code iterates a
Python *set* of the seven method names; its order is hash-dependent.
Under `observedSetOrder` — an order actually produced by CPython — the
document with a `get` and a `put` operation yields `PUT__x` before
`GET__x`, not the order of the seven standard HTTP methods (which would
give `GET__x` first, as the canonical written order does below). -/
theorem tool_name_order_claim_counterexample :
    build_tool_names observedSetOrder twoMethodSpec (some "http://b")
      = .ok ["PUT__x", "GET__x"] ∧
    observedSetOrder.Perm httpMethodsList ∧
    (["PUT__x", "GET__x"] : List String) ≠ ["GET__x", "PUT__x"] ∧
    build_tool_names httpMethodsList twoMethodSpec (some "http://b")
      = .ok ["GET__x", "PUT__x"] :=
  ⟨rfl, by decide, by decide, rfl⟩

/-- **C6** (amended).  For every iteration order `mo` of the method set (a
permutation of the seven names) and every well-typed document, the
collected names are grouped by path entry in document (discovery) order,
and within one path entry they follow `mo` — the set's unspecified,
hash-dependent order — one name per method present with a dict operation;
the order is in general neither the written order of the seven methods
nor alphabetical. -/
theorem tool_name_order_amended (mo : List String) (spec : List (String × PyVal))
    (ov : Option String) (ns : List String) (hmo : mo.Perm httpMethodsList)
    (hpaths : specWfB spec = true)
    (hok : build_tool_names mo spec ov = .ok ns) :
    ns = (match pyGetD spec "paths" (.dict []) with
          | PyVal.dict paths =>
            paths.flatMap (fun e =>
              match e.2 with
              | PyVal.dict item =>
                mo.filterMap (fun m =>
                  match item.lookup m with
                  | some (PyVal.dict op) => some (pureOpName m e.1 op)
                  | _ => none)
              | _ => [])
          | _ => []) := by
  have hb := build_tool_names_wf_eq mo (fun m hm => (hmo.mem_iff).mp hm) spec ov hpaths
  rw [hok] at hb
  cases hr : resolve_base_url spec ov with
  | error e => rw [hr] at hb; exact absurd hb (by simp [Except.map])
  | ok b =>
    rw [hr] at hb
    simp only [Except.map, Except.ok.injEq] at hb
    rw [hb]
    unfold collectToolNames pathToolNames
    rfl

/-- **C6** (witness).  Instantiating the amended ordering theorem on the
observed CPython set order and the two-operation document. -/
theorem tool_name_order_amended_witness :
    (["PUT__x", "GET__x"] : List String)
      = (match pyGetD twoMethodSpec "paths" (.dict []) with
         | PyVal.dict paths =>
           paths.flatMap (fun e =>
             match e.2 with
             | PyVal.dict item =>
               observedSetOrder.filterMap (fun m =>
                 match item.lookup m with
                 | some (PyVal.dict op) => some (pureOpName m e.1 op)
                 | _ => none)
             | _ => [])
         | _ => []) :=
  tool_name_order_amended observedSetOrder twoMethodSpec (some "http://b")
    ["PUT__x", "GET__x"] (by decide) (by decide) rfl

theorem lookup_pyDictSet (d : List (String × α)) (k k2 : String) (v : α) :
    (pyDictSet d k v).lookup k2 = if k2 = k then some v else d.lookup k2 := by
  induction d with
  | nil =>
    by_cases h : k2 = k
    · simp [pyDictSet, List.lookup, h]
    · have hb : (k2 == k) = false := beq_eq_false_iff_ne.mpr h
      simp [pyDictSet, List.lookup, h, hb]
  | cons kv t ih =>
    obtain ⟨k3, w⟩ := kv
    by_cases h3 : k3 = k
    · subst h3
      by_cases h : k2 = k3
      · subst h
        simp [pyDictSet, List.lookup]
      · have hb : (k2 == k3) = false := beq_eq_false_iff_ne.mpr h
        simp [pyDictSet, List.lookup, h, hb]
    · by_cases h : k2 = k3
      · have hb : (k2 == k3) = true := beq_iff_eq.mpr h
        have hkk : ¬ k2 = k := fun hh => h3 (h.symm.trans hh)
        simp [pyDictSet, h3, List.lookup, hb, hkk]
      · have hb : (k2 == k3) = false := beq_eq_false_iff_ne.mpr h
        simp [pyDictSet, h3, List.lookup, h, hb, ih]

theorem processParam_lookup (fields : List (String × FieldSpec)) (p : PyVal)
    (f1 : List (String × FieldSpec)) (name : String)
    (h : processParam fields p = .ok f1) :
    f1.lookup name =
      (if eligibleParam name p then some (fieldOfParam p) else fields.lookup name) := by
  cases p
  case dict d =>
    by_cases hname : (pyGetD d "name" .none_).truthy = true
    · by_cases hin : ((pyGetD d "in" .none_).isStrEq "path"
          || (pyGetD d "in" .none_).isStrEq "query") = true
      · cases hv : pyGetD d "name" .none_ with
        | str s =>
          have hs : (PyVal.str s).truthy = true := hv ▸ hname
          have hs2 : s ≠ "" := by simpa [PyVal.truthy] using hs
          cases hschema : pyGetD d "schema" (.dict []) with
          | dict schema =>
            cases hty : openapi_type_to_python schema with
            | ok ty =>
              have h2 := h
              unfold processParam at h2
              simp only [hv, hschema, hty, hs, hin, Bool.not_true] at h2
              simp at h2
              have htymatch : (match pyGetD schema "type" (.str "string") with
                  | PyVal.str s2 => openapiTypeMap s2
                  | _ => PyType.any) = ty := by
                unfold openapi_type_to_python at hty
                cases ht : pyGetD schema "type" (.str "string") with
                | str s2 => rw [ht] at hty; simp at hty; simp [hty]
                | list l => rw [ht] at hty; simp at hty
                | dict d2 => rw [ht] at hty; simp at hty
                | none_ => rw [ht] at hty; simp at hty; simp [hty]
                | bool b => rw [ht] at hty; simp at hty; simp [hty]
                | int n => rw [ht] at hty; simp at hty; simp [hty]
              have helig : eligibleParam name (PyVal.dict d)
                  = decide (s = name) := by
                show ((match pyGetD d "name" PyVal.none_ with
                    | PyVal.str s2 => s2 = name && s2 ≠ ""
                    | _ => false) &&
                  ((pyGetD d "in" PyVal.none_).isStrEq "path"
                    || (pyGetD d "in" PyVal.none_).isStrEq "query")) = decide (s = name)
                rw [hv, hin]
                simp [hs2]
              rw [← h2, lookup_pyDictSet, helig]
              by_cases heq : s = name
              · subst heq
                simp [fieldOfParam, hschema, htymatch]
              · have hne : ¬ name = s := fun hh => heq hh.symm
                simp [heq, hne]
            | error e =>
              have h2 := h
              unfold processParam at h2
              simp only [hv, hschema, hty, hs, hin, Bool.not_true] at h2
              simp at h2
          | none_ =>
            have h2 := h
            unfold processParam at h2
            simp only [hv, hschema, hs, hin, Bool.not_true] at h2
            simp at h2
          | bool b =>
            have h2 := h
            unfold processParam at h2
            simp only [hv, hschema, hs, hin, Bool.not_true] at h2
            simp at h2
          | int n =>
            have h2 := h
            unfold processParam at h2
            simp only [hv, hschema, hs, hin, Bool.not_true] at h2
            simp at h2
          | str s2 =>
            have h2 := h
            unfold processParam at h2
            simp only [hv, hschema, hs, hin, Bool.not_true] at h2
            simp at h2
          | list l =>
            have h2 := h
            unfold processParam at h2
            simp only [hv, hschema, hs, hin, Bool.not_true] at h2
            simp at h2
        | none_ => rw [hv] at hname; simp [PyVal.truthy] at hname
        | bool b =>
          have h2 := h
          simp only [processParam] at h2
          rw [hv] at h2 hname
          simp only [hname, hin, Bool.not_true] at h2
          cases hschema : pyGetD d "schema" (.dict []) with
          | dict schema =>
            rw [hschema] at h2
            cases hty : openapi_type_to_python schema with
            | ok ty => simp [hty] at h2
            | error e => simp [hty] at h2
          | none_ => rw [hschema] at h2; simp at h2
          | bool b2 => rw [hschema] at h2; simp at h2
          | int n => rw [hschema] at h2; simp at h2
          | str s => rw [hschema] at h2; simp at h2
          | list l => rw [hschema] at h2; simp at h2
        | int n =>
          have h2 := h
          simp only [processParam] at h2
          rw [hv] at h2 hname
          simp only [hname, hin, Bool.not_true] at h2
          cases hschema : pyGetD d "schema" (.dict []) with
          | dict schema =>
            rw [hschema] at h2
            cases hty : openapi_type_to_python schema with
            | ok ty => simp [hty] at h2
            | error e => simp [hty] at h2
          | none_ => rw [hschema] at h2; simp at h2
          | bool b2 => rw [hschema] at h2; simp at h2
          | int n2 => rw [hschema] at h2; simp at h2
          | str s => rw [hschema] at h2; simp at h2
          | list l => rw [hschema] at h2; simp at h2
        | list l =>
          have h2 := h
          simp only [processParam] at h2
          rw [hv] at h2 hname
          simp only [hname, hin, Bool.not_true] at h2
          cases hschema : pyGetD d "schema" (.dict []) with
          | dict schema =>
            rw [hschema] at h2
            cases hty : openapi_type_to_python schema with
            | ok ty => simp [hty] at h2
            | error e => simp [hty] at h2
          | none_ => rw [hschema] at h2; simp at h2
          | bool b2 => rw [hschema] at h2; simp at h2
          | int n => rw [hschema] at h2; simp at h2
          | str s => rw [hschema] at h2; simp at h2
          | list l2 => rw [hschema] at h2; simp at h2
        | dict d2 =>
          have h2 := h
          simp only [processParam] at h2
          rw [hv] at h2 hname
          simp only [hname, hin, Bool.not_true] at h2
          cases hschema : pyGetD d "schema" (.dict []) with
          | dict schema =>
            rw [hschema] at h2
            cases hty : openapi_type_to_python schema with
            | ok ty => simp [hty] at h2
            | error e => simp [hty] at h2
          | none_ => rw [hschema] at h2; simp at h2
          | bool b2 => rw [hschema] at h2; simp at h2
          | int n => rw [hschema] at h2; simp at h2
          | str s => rw [hschema] at h2; simp at h2
          | list l => rw [hschema] at h2; simp at h2
      · have hc : ((pyGetD d "in" .none_).isStrEq "path"
            || (pyGetD d "in" .none_).isStrEq "query") = false := by
          rwa [Bool.not_eq_true] at hin
        have h2 := h
        unfold processParam at h2
        simp only [hname, hc, Bool.not_true, Bool.not_false] at h2
        simp at h2
        have helig : eligibleParam name (PyVal.dict d) = false := by
          show ((match pyGetD d "name" PyVal.none_ with
              | PyVal.str s2 => s2 = name && s2 ≠ ""
              | _ => false) &&
            ((pyGetD d "in" PyVal.none_).isStrEq "path"
              || (pyGetD d "in" PyVal.none_).isStrEq "query")) = false
          rw [hc]
          simp
        rw [← h2, helig]
        simp
    · have h0 : (pyGetD d "name" .none_).truthy = false := by
        rwa [Bool.not_eq_true] at hname
      have h2 := h
      unfold processParam at h2
      simp only [h0, Bool.not_false] at h2
      simp at h2
      have helig : eligibleParam name (PyVal.dict d) = false := by
        show ((match pyGetD d "name" PyVal.none_ with
            | PyVal.str s2 => s2 = name && s2 ≠ ""
            | _ => false) &&
          ((pyGetD d "in" PyVal.none_).isStrEq "path"
            || (pyGetD d "in" PyVal.none_).isStrEq "query")) = false
        cases hv : pyGetD d "name" .none_ with
        | str s =>
          have hf : (PyVal.str s).truthy = false := hv ▸ h0
          have hsempty : s = "" := by simpa [PyVal.truthy] using hf
          subst hsempty
          simp
        | none_ => simp
        | bool b => simp
        | int n => simp
        | list l => simp
        | dict d2 => simp
      rw [← h2, helig]
      simp
  all_goals
    exact absurd h (by unfold processParam; simp)

theorem foldl_processParam_lookup (params : List PyVal) (name : String) :
    ∀ fields f2, params.foldlM processParam fields = .ok f2 →
      f2.lookup name =
        (match (params.filter (eligibleParam name)).getLast? with
         | some p => some (fieldOfParam p)
         | none => fields.lookup name) := by
  induction params with
  | nil =>
    intro fields f2 h
    have h2 : fields = f2 := Except.ok.inj h
    rw [← h2]
    simp
  | cons q t ih =>
    intro fields f2 h
    rw [List.foldlM_cons] at h
    cases hq : processParam fields q with
    | error e =>
      rw [hq] at h
      exact Except.noConfusion
        (show (Except.error e : Except ConvErr (List (String × FieldSpec))) = Except.ok f2 from h)
    | ok f1 =>
      rw [hq] at h
      have h2 : t.foldlM processParam f1 = .ok f2 := by simpa using h
      have hl := ih f1 f2 h2
      have hp := processParam_lookup fields q f1 name hq
      rw [hl, List.filter_cons]
      by_cases he : eligibleParam name q = true
      · simp only [he, if_true]
        cases hfilter : t.filter (eligibleParam name) with
        | nil =>
          simp
          rw [hp, he]
          simp
        | cons x xs =>
          rw [List.getLast?_cons_cons]
          have hz : ∃ z, (x :: xs).getLast? = some z := by
            cases hzz : (x :: xs).getLast? with
            | some z => exact ⟨z, rfl⟩
            | none => exact absurd hzz (by simp)
          obtain ⟨z, hz⟩ := hz
          rw [hz]
      · have he2 : eligibleParam name q = false := by rwa [Bool.not_eq_true] at he
        simp only [he2, Bool.false_eq_true, if_false]
        cases hfl : (t.filter (eligibleParam name)).getLast? with
        | some z => rfl
        | none =>
          rw [hp, he2]
          simp

theorem processBody_lookup (operation : List (String × PyVal))
    (f1 f2 : List (String × FieldSpec)) (name : String)
    (h : processBody operation f1 = .ok f2)
    (hnb : name ≠ "body" ∨ hasJsonBody operation = false) :
    f2.lookup name = f1.lookup name := by
  cases hrb : pyGetD operation "requestBody" (.dict []) with
  | dict rb =>
    cases hct : pyGetD rb "content" (.dict []) with
    | dict content =>
      simp only [processBody, hrb, hct] at h
      by_cases hj : (pyGetD content "application/json" (.dict [])).truthy = true
      · have hb : hasJsonBody operation = true := by
          unfold hasJsonBody
          simp only [hrb, hct, hj]
        rcases hnb with hn | hcontra
        · rw [hj] at h
          simp at h
          rw [← h, lookup_pyDictSet]
          simp [hn]
        · rw [hb] at hcontra
          exact absurd hcontra (by simp)
      · have hj2 : (pyGetD content "application/json" (.dict [])).truthy = false := by
          rwa [Bool.not_eq_true] at hj
        rw [hj2] at h
        simp at h
        rw [h]
    | none_ => simp only [processBody, hrb, hct] at h; simp at h
    | bool b => simp only [processBody, hrb, hct] at h; simp at h
    | int n => simp only [processBody, hrb, hct] at h; simp at h
    | str s => simp only [processBody, hrb, hct] at h; simp at h
    | list l => simp only [processBody, hrb, hct] at h; simp at h
  | none_ => simp only [processBody, hrb] at h; simp at h
  | bool b => simp only [processBody, hrb] at h; simp at h
  | int n => simp only [processBody, hrb] at h; simp at h
  | str s => simp only [processBody, hrb] at h; simp at h
  | list l => simp only [processBody, hrb] at h; simp at h

theorem build_input_model_lookup (operation : List (String × PyVal)) (pp opp : List PyVal)
    (name : String) (fields : List (String × FieldSpec))
    (hops : pyGetD operation "parameters" (.list []) = .list opp)
    (hok : build_input_model operation (.list pp) = .ok fields)
    (hnb : name ≠ "body" ∨ hasJsonBody operation = false) :
    fields.lookup name =
      (((pp ++ opp).filter (eligibleParam name)).getLast?).map fieldOfParam := by
  simp only [build_input_model, hops] at hok
  cases hmid : (pp ++ opp).foldlM processParam [] with
  | error e =>
    rw [hmid] at hok
    exact Except.noConfusion
      (show (Except.error e : Except ConvErr (List (String × FieldSpec))) = Except.ok fields
        from hok)
  | ok fmid =>
    rw [hmid] at hok
    have hok2 : processBody operation fmid = .ok fields := by simpa using hok
    rw [processBody_lookup operation fmid fields name hok2 hnb]
    rw [foldl_processParam_lookup (pp ++ opp) name [] fmid hmid]
    cases ((pp ++ opp).filter (eligibleParam name)).getLast? with
    | none => simp [List.lookup]
    | some q => simp

/-- **C5** (counterexample to the claim as stated).  A path-level query
parameter `x` (description `pathlevel`) and a same-named operation-level
parameter (description `oplevel`): the field dict stores the
operation-level version — `fields[param_name] = …` is a dict assignment
and the operation-level parameters are processed after the path-level
ones, so the operation level *does* override the path level, contrary to
the claim. -/
theorem param_merge_claim_counterexample :
    build_input_model opWithSameParamEx pathLevelParamsEx
      = .ok [("x", ⟨.optional .str, false, .str "oplevel"⟩)] ∧
    PyVal.str "oplevel" ≠ PyVal.str "pathlevel" :=
  ⟨rfl, fun h => by injection h with h2; exact absurd h2 (by decide)⟩

/-- **C5** (amended).  Path-level and operation-level parameters are
merged into the operation's input fields with last-write-wins dict
semantics over the concatenation `path_params ++ operation_params`: the
field stored under a name is the one derived from the *last* eligible
(path/query, truthy string name) parameter with that name — so a
same-named operation-level parameter *overrides* the path-level one —
and a name is present exactly when either level declares an eligible
parameter with it, so distinct names from both levels all contribute.
(Stated away from the reserved `body` field when a JSON body exists.) -/
theorem param_merge_amended (operation : List (String × PyVal)) (pp opp : List PyVal)
    (name : String) (fields : List (String × FieldSpec))
    (hops : pyGetD operation "parameters" (.list []) = .list opp)
    (hok : build_input_model operation (.list pp) = .ok fields)
    (hnb : name ≠ "body" ∨ hasJsonBody operation = false) :
    fields.lookup name =
      (((pp ++ opp).filter (eligibleParam name)).getLast?).map fieldOfParam ∧
    (opp.filter (eligibleParam name) ≠ [] →
      fields.lookup name = ((opp.filter (eligibleParam name)).getLast?).map fieldOfParam) ∧
    ((fields.lookup name).isSome ↔ (pp ++ opp).filter (eligibleParam name) ≠ []) := by
  have hmain := build_input_model_lookup operation pp opp name fields hops hok hnb
  refine ⟨hmain, ?_, ?_⟩
  · intro hne
    rw [hmain, List.filter_append, List.getLast?_append_of_ne_nil _ hne]
  · rw [hmain]
    cases hfl : ((pp ++ opp).filter (eligibleParam name)) with
    | nil => simp
    | cons x xs =>
      have hz : ∃ z, (x :: xs).getLast? = some z := by
        cases hzz : (x :: xs).getLast? with
        | some z => exact ⟨z, rfl⟩
        | none => exact absurd hzz (by simp)
      obtain ⟨z, hz⟩ := hz
      rw [hz]
      simp

/-- **C5** (witness).  Instantiating the amended merge theorem on the
clashing path-level/operation-level parameter `x`: the stored field is
the one from the last (operation-level) occurrence. -/
theorem param_merge_amended_witness :
    List.lookup "x" [("x", (⟨.optional .str, false, .str "oplevel"⟩ : FieldSpec))]
      = (((pathLevelParamsExList ++ opParamsExList).filter (eligibleParam "x")).getLast?).map
          fieldOfParam :=
  (param_merge_amended opWithSameParamEx pathLevelParamsExList opParamsExList "x"
    [("x", ⟨.optional .str, false, .str "oplevel"⟩)] rfl rfl
    (Or.inl (by decide))).1

/-- **C7** (confirmed).  The response-processing step of the invocation
handler is a total function of the upstream response — it raises for no
status code, 2xx or otherwise.  When the content type contains
`application/json` and parsing succeeds, the parsed structure is returned
as is (upstream error bodies pass through as parsed JSON); on parse
failure or any non-JSON content type, the structured fallback is
returned, whose `text`, `status_code` and `content_type` entries carry
the upstream body, status code and content type unchanged. -/
theorem handler_response_spec (r : UpstreamResponse) :
    (∀ v, strContains "application/json" r.contentType = true → r.jsonResult = some v →
      handle_response r = v) ∧
    ((strContains "application/json" r.contentType = false ∨ r.jsonResult = none) →
      ∃ d, handle_response r = .dict d ∧
        d.lookup "text" = some (.str r.text) ∧
        d.lookup "status_code" = some (.int r.status) ∧
        d.lookup "content_type" = some (.str r.contentType)) := by
  constructor
  · intro v hct hj
    unfold handle_response
    rw [hct, hj]
    simp
  · intro hcase
    refine ⟨[("text", .str r.text), ("status_code", .int r.status),
      ("content_type", .str r.contentType)], ?_, by simp [List.lookup],
      by simp [List.lookup], by simp [List.lookup]⟩
    unfold handle_response fallbackResponse
    rcases hcase with hct | hj
    · rw [hct]
      simp
    · rw [hj]
      by_cases hct : strContains "application/json" r.contentType = true <;> simp [hct]

/-- **C7** (witness).  A non-2xx HTML response becomes the structured
fallback with the upstream status passed through; a JSON 200 response is
returned parsed. -/
theorem handler_response_spec_witness :
    (∃ d, handle_response ⟨404, "text/html", "oops", none⟩ = .dict d ∧
      d.lookup "text" = some (.str "oops") ∧
      d.lookup "status_code" = some (.int 404) ∧
      d.lookup "content_type" = some (.str "text/html")) ∧
    handle_response ⟨200, "application/json; charset=utf-8", "",
        some (.dict [("ok", .bool true)])⟩
      = .dict [("ok", .bool true)] :=
  ⟨(handler_response_spec ⟨404, "text/html", "oops", none⟩).2 (Or.inl (by decide)),
   (handler_response_spec ⟨200, "application/json; charset=utf-8", "",
      some (.dict [("ok", .bool true)])⟩).1 _ (by decide) rfl⟩

theorem dropLastSegment_append_slash (s : String) :
    dropLastSegment (s ++ "/") = s ++ "/" := by
  unfold dropLastSegment
  have hd : (s ++ "/").data = s.data ++ ['/'] := by simp
  rw [hd, List.reverse_append]
  simp [List.dropWhile]
  rw [← hd]

/-- **C8** (confirmed).  For a resolved base URL (no trailing slash, as
`resolve_base_url` produces) and a substituted path inside the modelled
`urljoin` domain (no scheme colon, query, fragment or dot segments; at
most one leading slash), the composed URL is exactly the base, one
separator, and the path with its single leading slash removed — in
particular one separator exists at the join. -/
theorem build_url_one_separator (baseUrl path : String) (params : List (String × PyVal))
    (hbase : pyEndsWith baseUrl "/" = false)
    (hrel : pyStartsWith
        (if pyStartsWith (substitutedPath path params) "/"
         then pyDropChars (substitutedPath path params) 1
         else substitutedPath path params) "/" = false)
    (hcolon : ':' ∉ (substitutedPath path params).data)
    (hquery : '?' ∉ (substitutedPath path params).data)
    (hfrag : '#' ∉ (substitutedPath path params).data)
    (hdots : ∀ seg ∈ splitSlashes (substitutedPath path params).data,
      seg ≠ ['.'] ∧ seg ≠ ['.', '.']) :
    build_url_with_path_params baseUrl path params
      = baseUrl ++ "/" ++ (if pyStartsWith (substitutedPath path params) "/"
          then pyDropChars (substitutedPath path params) 1
          else substitutedPath path params) := by
  show urljoinModel
      (if pyEndsWith baseUrl "/" then baseUrl else baseUrl ++ "/")
      (if pyStartsWith (substitutedPath path params) "/"
        then pyDropChars (substitutedPath path params) 1
        else substitutedPath path params) = _
  rw [hbase]
  simp only [Bool.false_eq_true, if_false]
  unfold urljoinModel
  rw [hrel]
  simp only [Bool.false_eq_true, if_false]
  rw [dropLastSegment_append_slash, String.append_assoc]

/-- **C8** (witness).  The claim's example:
`build_url_with_path_params` on base `https://api.x.com`, template
`/pets/` + `petId` placeholder, and `petId = 123`. -/
theorem build_url_one_separator_witness :
    build_url_with_path_params "https://api.x.com" "/pets/{petId}" [("petId", .int 123)]
      = "https://api.x.com/pets/123" := by
  have h123 : pyStr (.int 123) = "123" := by simp [pyStr]; rfl
  have hsub : substitutedPath "/pets/{petId}" [("petId", .int 123)] = "/pets/123" := by
    simp [substitutedPath, h123]
    rfl
  have h := build_url_one_separator "https://api.x.com" "/pets/{petId}"
    [("petId", .int 123)] (by decide)
    (by rw [hsub]; decide) (by rw [hsub]; decide) (by rw [hsub]; decide)
    (by rw [hsub]; decide) (by rw [hsub]; decide)
  rw [h, hsub]
  rfl

theorem lookup_pyDictPop (d : List (String × α)) (k k2 : String) :
    (pyDictPop d k).lookup k2 = if k2 = k then none else d.lookup k2 := by
  induction d with
  | nil => by_cases h : k2 = k <;> simp [pyDictPop, List.lookup, h]
  | cons kv t ih =>
    obtain ⟨k3, w⟩ := kv
    by_cases h3 : k3 = k
    · have hstep : pyDictPop ((k3, w) :: t) k = pyDictPop t k := by
        simp [pyDictPop, List.filter_cons, h3]
      rw [hstep, ih]
      by_cases h : k2 = k
      · simp [h]
      · have hb : (k2 == k3) = false := beq_eq_false_iff_ne.mpr (by rw [h3]; exact h)
        simp [h, List.lookup, hb]
    · have hstep : pyDictPop ((k3, w) :: t) k = (k3, w) :: pyDictPop t k := by
        simp [pyDictPop, List.filter_cons, h3]
      rw [hstep]
      by_cases h : k2 = k3
      · subst h
        simp [List.lookup, h3]
      · have hb : (k2 == k3) = false := beq_eq_false_iff_ne.mpr h
        simp [List.lookup, hb, ih]

theorem regInvariant_preserved (App : Type) (r : RegState App) (op : HubOp App)
    (hinv : RegInvariant r) : RegInvariant (applyHubOp r op) := by
  obtain ⟨hmain, horph⟩ := hinv
  cases op with
  | register nm errs ov =>
    by_cases hex : (r.specs.lookup nm).isSome
    · simpa [applyHubOp, hex] using ⟨hmain, horph⟩
    · have hs : (applyHubOp r (HubOp.register nm errs ov)).specs =
          pyDictSet r.specs nm
            ⟨false, (if errs.isEmpty then ValidationStatus.valid else .invalid), errs, [], ov⟩ := by
        simp [applyHubOp, hex]
      have ha : (applyHubOp r (HubOp.register nm errs ov)).mcp_apps = r.mcp_apps := by
        simp [applyHubOp, hex]
      constructor
      · intro n e hn
        rw [hs, lookup_pyDictSet] at hn
        rw [ha]
        by_cases hnm : n = nm
        · rw [if_pos hnm] at hn
          injection hn with he
          subst he
          refine ⟨by intro hcon; simp at hcon, ?_, ?_⟩
          · intro _
            refine ⟨rfl, ?_⟩
            apply horph
            rw [hnm]
            exact Option.not_isSome_iff_eq_none.mp hex
          · by_cases herrs : errs.isEmpty <;> simp [herrs]
        · rw [if_neg hnm] at hn
          exact hmain n e hn
      · intro n hn
        rw [hs, lookup_pyDictSet] at hn
        rw [ha]
        by_cases hnm : n = nm
        · rw [if_pos hnm] at hn
          exact absurd hn (by simp)
        · rw [if_neg hnm] at hn
          exact horph n hn
  | enable nm conv =>
    cases he : r.specs.lookup nm with
    | none => simpa [applyHubOp, he] using ⟨hmain, horph⟩
    | some e0 =>
      by_cases hst : e0.validation_status = .invalid
      · simpa [applyHubOp, he, hst] using ⟨hmain, horph⟩
      · cases conv with
        | none => simpa [applyHubOp, he, hst] using ⟨hmain, horph⟩
        | some pr =>
          obtain ⟨app, names⟩ := pr
          have hvalid : e0.validation_status = .valid := by
            have hnp := (hmain nm e0 he).2.2
            cases hv : e0.validation_status with
            | valid => rfl
            | invalid => exact absurd hv hst
            | pending => exact absurd hv hnp
          have hs : (applyHubOp r (HubOp.enable nm (some (app, names)))).specs =
              pyDictSet r.specs nm { e0 with enabled := true, tool_names := names } := by
            simp [applyHubOp, he, hst]
          have hap : (applyHubOp r (HubOp.enable nm (some (app, names)))).mcp_apps =
              pyDictSet r.mcp_apps nm app := by
            simp [applyHubOp, he, hst]
          constructor
          · intro n e hn
            rw [hs, lookup_pyDictSet] at hn
            rw [hap]
            by_cases hnm : n = nm
            · rw [if_pos hnm] at hn
              injection hn with hee
              subst hee
              refine ⟨?_, ?_, ?_⟩
              · intro _
                refine ⟨hvalid, ⟨app, ?_⟩⟩
                rw [lookup_pyDictSet, if_pos hnm]
              · intro hcon
                simp at hcon
              · simpa using fun hp => hst (by rw [hvalid] at hp; cases hp)
            · rw [if_neg hnm] at hn
              have h2 := hmain n e hn
              refine ⟨?_, ?_, h2.2.2⟩
              · intro hen
                obtain ⟨hv, a, ha⟩ := h2.1 hen
                refine ⟨hv, ⟨a, ?_⟩⟩
                rw [lookup_pyDictSet, if_neg hnm]
                exact ha
              · intro hdis
                obtain ⟨ht, ha⟩ := h2.2.1 hdis
                refine ⟨ht, ?_⟩
                rw [lookup_pyDictSet, if_neg hnm]
                exact ha
          · intro n hn
            rw [hs, lookup_pyDictSet] at hn
            rw [hap]
            by_cases hnm : n = nm
            · rw [if_pos hnm] at hn
              exact absurd hn (by simp)
            · rw [if_neg hnm] at hn
              rw [lookup_pyDictSet, if_neg hnm]
              exact horph n hn
  | disable nm =>
    cases he : r.specs.lookup nm with
    | none => simpa [applyHubOp, he] using ⟨hmain, horph⟩
    | some e0 =>
      have hs : (applyHubOp r (HubOp.disable nm)).specs =
          pyDictSet r.specs nm { e0 with enabled := false, tool_names := [] } := by
        simp [applyHubOp, he]
      have hap : (applyHubOp r (HubOp.disable nm)).mcp_apps = pyDictPop r.mcp_apps nm := by
        simp [applyHubOp, he]
      constructor
      · intro n e hn
        rw [hs, lookup_pyDictSet] at hn
        rw [hap]
        by_cases hnm : n = nm
        · rw [if_pos hnm] at hn
          injection hn with hee
          subst hee
          refine ⟨by intro hcon; simp at hcon, ?_, by simpa using (hmain nm e0 he).2.2⟩
          intro _
          refine ⟨rfl, ?_⟩
          rw [lookup_pyDictPop, if_pos hnm]
        · rw [if_neg hnm] at hn
          have h2 := hmain n e hn
          refine ⟨?_, ?_, h2.2.2⟩
          · intro hen
            obtain ⟨hv, a, ha⟩ := h2.1 hen
            refine ⟨hv, ⟨a, ?_⟩⟩
            rw [lookup_pyDictPop, if_neg hnm]
            exact ha
          · intro hdis
            obtain ⟨ht, ha⟩ := h2.2.1 hdis
            refine ⟨ht, ?_⟩
            rw [lookup_pyDictPop, if_neg hnm]
            exact ha
      · intro n hn
        rw [hs, lookup_pyDictSet] at hn
        rw [hap]
        by_cases hnm : n = nm
        · rw [if_pos hnm] at hn
          exact absurd hn (by simp)
        · rw [if_neg hnm] at hn
          rw [lookup_pyDictPop, if_neg hnm]
          exact horph n hn
  | delete nm =>
    cases he : r.specs.lookup nm with
    | none => simpa [applyHubOp, he] using ⟨hmain, horph⟩
    | some e0 =>
      have hs : (applyHubOp r (HubOp.delete nm)).specs =
          pyDictPop (pyDictSet r.specs nm { e0 with enabled := false, tool_names := [] }) nm := by
        simp [applyHubOp, he]
      have hap : (applyHubOp r (HubOp.delete nm)).mcp_apps = pyDictPop r.mcp_apps nm := by
        simp [applyHubOp, he]
      constructor
      · intro n e hn
        rw [hs, lookup_pyDictPop] at hn
        rw [hap]
        by_cases hnm : n = nm
        · rw [if_pos hnm] at hn
          exact absurd hn (by simp)
        · rw [if_neg hnm, lookup_pyDictSet, if_neg hnm] at hn
          have h2 := hmain n e hn
          refine ⟨?_, ?_, h2.2.2⟩
          · intro hen
            obtain ⟨hv, a, ha⟩ := h2.1 hen
            refine ⟨hv, ⟨a, ?_⟩⟩
            rw [lookup_pyDictPop, if_neg hnm]
            exact ha
          · intro hdis
            obtain ⟨ht, ha⟩ := h2.2.1 hdis
            refine ⟨ht, ?_⟩
            rw [lookup_pyDictPop, if_neg hnm]
            exact ha
      · intro n hn
        rw [hs, lookup_pyDictPop] at hn
        rw [hap]
        by_cases hnm : n = nm
        · rw [lookup_pyDictPop, if_pos hnm]
        · rw [if_neg hnm, lookup_pyDictSet, if_neg hnm] at hn
          rw [lookup_pyDictPop, if_neg hnm]
          exact horph n hn

theorem regInvariant_foldl (App : Type) (ops : List (HubOp App)) :
    ∀ s, RegInvariant s → RegInvariant (ops.foldl applyHubOp s) := by
  induction ops with
  | nil => intro s hs; simpa using hs
  | cons op t ih =>
    intro s hs
    rw [List.foldl_cons]
    exact ih (applyHubOp s op) (regInvariant_preserved App s op hs)

theorem regInvariant_ops (App : Type) (ops : List (HubOp App)) :
    RegInvariant (applyHubOps App ops) := by
  have hinit : RegInvariant (regInit App) := by
    constructor
    · intro n e hn
      simp [regInit, List.lookup] at hn
    · intro n _
      simp [regInit, List.lookup]
  exact regInvariant_foldl App ops (regInit App) hinit

/-- **C1.** Registry state invariant: after any sequence of
register/enable/disable/delete operations from the empty registry, every
stored entry with `enabled = true` has `validation_status = valid` and a
sub-application in the side table, every entry with `enabled = false` has
empty `tool_names` and no side-table binding, and `get_mcp_app` returns a
sub-application exactly when the entry exists and is enabled. -/
theorem registry_invariant (App : Type) (ops : List (HubOp App)) (n : String) :
    (∀ e, (applyHubOps App ops).specs.lookup n = some e →
      (e.enabled = true → e.validation_status = ValidationStatus.valid ∧
        ∃ a, (applyHubOps App ops).mcp_apps.lookup n = some a) ∧
      (e.enabled = false → e.tool_names = [] ∧
        (applyHubOps App ops).mcp_apps.lookup n = none)) ∧
    ((get_mcp_app (applyHubOps App ops) n).isSome ↔
      ∃ e, (applyHubOps App ops).specs.lookup n = some e ∧ e.enabled = true) := by
  obtain ⟨hmain, horph⟩ := regInvariant_ops App ops
  constructor
  · intro e hn
    exact ⟨(hmain n e hn).1, (hmain n e hn).2.1⟩
  · constructor
    · intro hiso
      cases he : (applyHubOps App ops).specs.lookup n with
      | none => simp [get_mcp_app, he] at hiso
      | some e =>
        by_cases hen : e.enabled = true
        · exact ⟨e, rfl, hen⟩
        · simp [get_mcp_app, he, hen] at hiso
    · rintro ⟨e, he, hen⟩
      obtain ⟨_, a, ha⟩ := (hmain n e he).1 hen
      simp [get_mcp_app, he, hen, ha]

/-- A closed instance of the registry invariant: register `dog`, enable
it, disable it again; the final entry is disabled with no tool names and
no side-table binding. -/
theorem registry_invariant_witness :
    (applyHubOps Unit
        [HubOp.register "dog" [] none,
         HubOp.enable "dog" (some ((), ["t"])),
         HubOp.disable "dog"]).specs.lookup "dog" =
      some ⟨false, ValidationStatus.valid, [], [], none⟩ ∧
    ((⟨false, ValidationStatus.valid, [], [], none⟩ : RegEntry).tool_names = [] ∧
      (applyHubOps Unit
        [HubOp.register "dog" [] none,
         HubOp.enable "dog" (some ((), ["t"])),
         HubOp.disable "dog"]).mcp_apps.lookup "dog" = none) :=
  ⟨rfl,
   ((registry_invariant Unit
      [HubOp.register "dog" [] none,
       HubOp.enable "dog" (some ((), ["t"])),
       HubOp.disable "dog"] "dog").1
     ⟨false, ValidationStatus.valid, [], [], none⟩ rfl).2 rfl⟩

/-- `dispatch` on an HTTP scope, with the lets inlined: the outer
scope-type test passes and the result is determined by the first path
segment and the registry. -/
theorem dispatch_http (App : Type) (r : RegState App) (path rootPath : String) :
    dispatch r "http" path rootPath =
      (if firstSegName path rootPath = "" then
        DispatchResult.reply 404 "Spec name required in path: /mcp/{spec_name}/..."
      else
        match get_mcp_app r (firstSegName path rootPath) with
        | none =>
          match r.specs.lookup (firstSegName path rootPath) with
          | none => DispatchResult.reply 404
              ("Spec '" ++ firstSegName path rootPath ++ "' not found")
          | some _ => DispatchResult.reply 404
              ("Spec '" ++ firstSegName path rootPath ++ "' is not enabled for MCP exposure")
        | some app => DispatchResult.forward app
            ("/" ++ ((splitFirstSlash
                (pyStripChar (normalizeDispatchPath path rootPath) '/')).2.getD ""))
            (rootPath ++ "/" ++ firstSegName path rootPath)) :=
  rfl

/-- **C9.** Dispatcher 404 discrimination: on an HTTP request, an empty
first path segment yields a 404 naming the expected path shape; a first
segment never registered yields a 404 "not found" message; a first segment
registered but not enabled yields a 404 "not enabled" message; and for
every name the two messages differ, so the cases are distinguishable.  All
three are `reply` results: the dispatcher answers them itself. -/
theorem dispatcher_404 (App : Type) (r : RegState App) (path rootPath : String) :
    (firstSegName path rootPath = "" →
       dispatch r "http" path rootPath =
         DispatchResult.reply 404 "Spec name required in path: /mcp/{spec_name}/...") ∧
    (firstSegName path rootPath ≠ "" →
       r.specs.lookup (firstSegName path rootPath) = none →
       dispatch r "http" path rootPath =
         DispatchResult.reply 404
           ("Spec '" ++ firstSegName path rootPath ++ "' not found")) ∧
    (∀ e, firstSegName path rootPath ≠ "" →
       r.specs.lookup (firstSegName path rootPath) = some e → e.enabled = false →
       dispatch r "http" path rootPath =
         DispatchResult.reply 404
           ("Spec '" ++ firstSegName path rootPath ++ "' is not enabled for MCP exposure")) ∧
    (∀ nm : String,
       ("Spec '" ++ nm ++ "' not found" : String) ≠
         "Spec '" ++ nm ++ "' is not enabled for MCP exposure") := by
  refine ⟨?_, ?_, ?_, ?_⟩
  · intro h0
    rw [dispatch_http, if_pos h0]
  · intro hne hnone
    have hget : get_mcp_app r (firstSegName path rootPath) = none := by
      simp [get_mcp_app, hnone]
    rw [dispatch_http, if_neg hne, hget, hnone]
  · intro e hne hsome hdis
    have hget : get_mcp_app r (firstSegName path rootPath) = none := by
      simp [get_mcp_app, hsome, hdis]
    rw [dispatch_http, if_neg hne, hget, hsome]
  · intro nm hcon
    have hd := congrArg String.data hcon
    simp only [String.data_append] at hd
    have h2 := List.append_cancel_left hd
    exact absurd h2 (by decide)

/-- The C9 cases at concrete inputs: against a registry holding only the
disabled spec `dog`, the path `/` draws the path-shape 404, `/cat/mcp`
draws the "not found" 404, `/dog/mcp` draws the "not enabled" 404, and the
two messages for the name `cat` differ. -/
theorem dispatcher_404_witness :
    dispatch dispatchExampleReg "http" "/" "" =
      DispatchResult.reply 404 "Spec name required in path: /mcp/{spec_name}/..." ∧
    dispatch dispatchExampleReg "http" "/cat/mcp" "" =
      DispatchResult.reply 404 "Spec 'cat' not found" ∧
    dispatch dispatchExampleReg "http" "/dog/mcp" "" =
      DispatchResult.reply 404 "Spec 'dog' is not enabled for MCP exposure" ∧
    ("Spec 'cat' not found" : String) ≠
      "Spec 'cat' is not enabled for MCP exposure" :=
  ⟨(dispatcher_404 Unit dispatchExampleReg "/" "").1 rfl,
   (dispatcher_404 Unit dispatchExampleReg "/cat/mcp" "").2.1 (by decide) rfl,
   (dispatcher_404 Unit dispatchExampleReg "/dog/mcp" "").2.2.1
     ⟨false, ValidationStatus.valid, [], [], none⟩ (by decide) rfl rfl,
   (dispatcher_404 Unit dispatchExampleReg "/" "").2.2.2 "cat"⟩

theorem lmInv_step (s : LMState) (l : LMLabel) (h : LMInv s) : LMInv (lmStep s l) := by
  obtain ⟨hsp, hini, hpc, hfin⟩ := h
  cases l with
  | bgStep =>
    by_cases hst : s.started = true
    · have hred : lmStep s .bgStep = { s with initialized := true } := by
        simp [lmStep, hst]
      rw [hred]
      exact ⟨hsp, fun _ => hst, hpc, fun i _ => rfl⟩
    · have hred : lmStep s .bgStep = s := by simp [lmStep, hst]
      rw [hred]
      exact ⟨hsp, hini, hpc, hfin⟩
  | callerStep i =>
    cases hg : s.callers[i]? with
    | none =>
      have hred : lmStep s (.callerStep i) = s := by simp [lmStep, hg]
      rw [hred]
      exact ⟨hsp, hini, hpc, hfin⟩
    | some pc =>
      cases pc with
      | atEntry =>
        by_cases hst : s.started = true
        · have hred : lmStep s (.callerStep i) =
              { s with callers := s.callers.set i .waiting } := by
            simp [lmStep, hg, hst]
          rw [hred]
          refine ⟨hsp, hini, fun _ _ _ _ => hst, ?_⟩
          intro j hj
          by_cases hij : i = j
          · subst hij
            rw [List.getElem?_set_self', hg] at hj
            simp at hj
          · rw [List.getElem?_set_ne hij] at hj
            exact hfin j hj
        · have hred : lmStep s (.callerStep i) =
              { s with started := true, spawned := s.spawned + 1,
                       callers := s.callers.set i .waiting } := by
            simp [lmStep, hg, hst]
          rw [hred]
          refine ⟨?_, fun _ => rfl, fun _ _ _ _ => rfl, ?_⟩
          · have h0 : s.spawned = 0 := by rw [hsp, if_neg hst]
            simp [h0]
          · intro j hj
            by_cases hij : i = j
            · subst hij
              rw [List.getElem?_set_self', hg] at hj
              simp at hj
            · rw [List.getElem?_set_ne hij] at hj
              exact hfin j hj
      | waiting =>
        by_cases hin : s.initialized = true
        · have hred : lmStep s (.callerStep i) =
              { s with callers := s.callers.set i .finished } := by
            simp [lmStep, hg, hin]
          rw [hred]
          refine ⟨hsp, hini, ?_, fun _ _ => hin⟩
          intro j pc hj hne
          exact hpc i .waiting hg (fun hcon => CallerPhase.noConfusion hcon)
        · have hred : lmStep s (.callerStep i) = s := by simp [lmStep, hg, hin]
          rw [hred]
          exact ⟨hsp, hini, hpc, hfin⟩
      | finished =>
        have hred : lmStep s (.callerStep i) = s := by simp [lmStep, hg]
        rw [hred]
        exact ⟨hsp, hini, hpc, hfin⟩

theorem lmInv_run (n : Nat) (trace : List LMLabel) : LMInv (lmRun n trace) := by
  have hfold : ∀ (l : List LMLabel) (s : LMState), LMInv s → LMInv (l.foldl lmStep s) := by
    intro l
    induction l with
    | nil => intro s hs; simpa using hs
    | cons a t ih =>
      intro s hs
      rw [List.foldl_cons]
      exact ih _ (lmInv_step s a hs)
  apply hfold
  refine ⟨rfl, fun h => h, ?_, ?_⟩
  · intro i pc hg hne
    exact absurd (List.eq_of_mem_replicate (List.getElem?_mem hg)) hne
  · intro i hg
    exact absurd (List.eq_of_mem_replicate (List.getElem?_mem hg)) (by decide)

/-- **C10.** Lifecycle single-start: for `n` concurrent `ensure_started`
callers on one uninitialized name and any cooperative interleaving, at
most one background startup task is ever created; once any caller has
passed its entry block exactly one was created; and a caller returns only
after the single task has set the `initialized` event. -/
theorem lifecycle_single_start (n : Nat) (trace : List LMLabel) :
    (lmRun n trace).spawned ≤ 1 ∧
    (∀ i : Nat, (lmRun n trace).callers[i]? = some CallerPhase.finished →
      (lmRun n trace).initialized = true) ∧
    ((∃ pc ∈ (lmRun n trace).callers, pc ≠ CallerPhase.atEntry) →
      (lmRun n trace).spawned = 1) := by
  obtain ⟨hsp, hini, hpc, hfin⟩ := lmInv_run n trace
  refine ⟨?_, hfin, ?_⟩
  · rw [hsp]
    by_cases hst : (lmRun n trace).started = true <;> simp [hst]
  · rintro ⟨pc, hmem, hne⟩
    obtain ⟨i, hi⟩ := List.getElem?_of_mem hmem
    rw [hsp, hpc i pc hi hne]
    rfl

/-- The C10 bounds at a concrete schedule: two callers both enter, the
background task signals, and both callers return; one task was spawned and
the event is set. -/
theorem lifecycle_single_start_witness :
    (lmRun 2 [LMLabel.callerStep 0, LMLabel.callerStep 1, LMLabel.bgStep,
              LMLabel.callerStep 0, LMLabel.callerStep 1]).spawned ≤ 1 ∧
    (lmRun 2 [LMLabel.callerStep 0, LMLabel.callerStep 1, LMLabel.bgStep,
              LMLabel.callerStep 0, LMLabel.callerStep 1]).initialized = true ∧
    (lmRun 2 [LMLabel.callerStep 0, LMLabel.callerStep 1, LMLabel.bgStep,
              LMLabel.callerStep 0, LMLabel.callerStep 1]).spawned = 1 :=
  ⟨(lifecycle_single_start 2 [LMLabel.callerStep 0, LMLabel.callerStep 1, LMLabel.bgStep,
      LMLabel.callerStep 0, LMLabel.callerStep 1]).1,
   (lifecycle_single_start 2 [LMLabel.callerStep 0, LMLabel.callerStep 1, LMLabel.bgStep,
      LMLabel.callerStep 0, LMLabel.callerStep 1]).2.1 0 rfl,
   (lifecycle_single_start 2 [LMLabel.callerStep 0, LMLabel.callerStep 1, LMLabel.bgStep,
      LMLabel.callerStep 0, LMLabel.callerStep 1]).2.2
     ⟨CallerPhase.finished, by decide, by decide⟩⟩

end MCPHub
